import Mathlib

/-!
Verification development for the Gomercator repository: a shallow embedding
of the Geohash / k-bucket / Mercator broadcast simulator written in Go,
together with theorems settling the specification claims.

Modelling conventions:
* Go strings are modelled as `List Char`; binary expansions (strings of the
  characters 0 and 1 in Go) are modelled as `List Bool`.
* Go `float64` quantities are modelled as exact rationals; the haversine
  distance function (built from trigonometric functions) is passed around as
  an abstract parameter `distFn : Nat -> Nat -> Rat` standing for
  `Distance(coords[u], coords[v])`.
* Go `uint` is 64-bit on the reference build targets; its arithmetic is
  modelled on `Nat` with explicit reduction modulo `2 ^ 64`.
* Randomness (the processing-delay draws) is modelled by an explicit stream
  of draws `procs : Nat -> Rat`.
-/

namespace Gomercator

/-! ## Geohash character and bit primitives (vivaldi_plusplus.go) -/

/-- The Geohash Base32 alphabet, `Base32Charset = "0123456789bcdefghjkmnpqrstuvwxyz"`. -/
def base32Charset : List Char :=
  ['0', '1', '2', '3', '4', '5', '6', '7', '8', '9', 'b', 'c', 'd', 'e', 'f', 'g',
   'h', 'j', 'k', 'm', 'n', 'p', 'q', 'r', 's', 't', 'u', 'v', 'w', 'x', 'y', 'z']

/-- Go `strings.IndexRune` on a character list: index of the first occurrence,
`-1` when the character does not occur. -/
def indexRune (s : List Char) (c : Char) : Int :=
  if c ∈ s then (s.indexOf c : Int) else -1

/-- The 5-bit big-endian expansion of an alphabet index, as produced by the
inner loop of `CharToBits` (bit `(idx >> i) & 1` for `i = 4 .. 0`). -/
def bits5 (idx : Nat) : List Bool :=
  [(idx >>> 4) &&& 1 == 1, (idx >>> 3) &&& 1 == 1, (idx >>> 2) &&& 1 == 1,
   (idx >>> 1) &&& 1 == 1, idx &&& 1 == 1]

/-- `CharToBits`: the 5-bit expansion of the Base32 index of a character;
characters outside the alphabet (index `-1`) are mapped to index `0`. -/
def charToBits (ch : Char) : List Bool :=
  let idx := indexRune base32Charset ch
  let idx := if idx = -1 then 0 else idx
  bits5 idx.toNat

/-- `ToBinary`: concatenation of the per-character 5-bit expansions. -/
def toBinary (geohash : List Char) : List Bool :=
  geohash.flatMap charToBits

/-- `FirstDiffBitPos` (helper of the main entry point): position of the first
differing bit over the common prefix, `-1` when none differs. -/
def firstDiffBitPosAux : List Bool → List Bool → Nat → Int
  | a :: as, b :: bs, i => if a ≠ b then (i : Int) else firstDiffBitPosAux as bs (i + 1)
  | _, _, _ => -1

/-- `FirstDiffBitPos(aBin, bBin)`: first differing bit position over the
common prefix of the two binary strings, `-1` if they agree. -/
def firstDiffBitPos (aBin bBin : List Bool) : Int :=
  firstDiffBitPosAux aBin bBin 0

/-- The modulus of the Go `uint` type (64-bit on the reference platforms). -/
def UINT64MOD : Nat := 2 ^ 64

/-- Loop body accumulator of `XorDistance`: starting at bit index `i` with
accumulated `distance`, add `1 << (maxLen - i - 1)` (in 64-bit `uint`
arithmetic) for every differing position. -/
def xorDistanceAux (maxLen : Nat) : List Bool → List Bool → Nat → Nat → Nat
  | a :: as, b :: bs, i, distance =>
      xorDistanceAux maxLen as bs (i + 1)
        (if a ≠ b then (distance + (1 <<< (maxLen - i - 1)) % UINT64MOD) % UINT64MOD
         else distance)
  | _, _, _, distance => distance

/-- `XorDistance(binaryA, binaryB)`: the XOR distance of two binary strings,
computed in Go `uint` (64-bit) arithmetic. -/
def xorDistance (binaryA binaryB : List Bool) : Nat :=
  xorDistanceAux (min binaryA.length binaryB.length) binaryA binaryB 0 0

/-- The highest-set-bit loop of `GetGeoBucketIndex` (`for dist > 0 { dist >>= 1;
idx++ }`), written with an explicit fuel bounded below by `dist` itself. -/
def countBitsAux : Nat → Nat → Nat
  | 0, _ => 0
  | fuel + 1, dist => if dist = 0 then 0 else countBitsAux fuel (dist / 2) + 1

/-- Number of binary digits of `dist` (the `idx` computed by the shift loop in
`GetGeoBucketIndex`). -/
def countBits (dist : Nat) : Nat :=
  countBitsAux dist dist

/-- `GetGeoBucketIndex(hashA, hashB, totalBits)`: `0` when the XOR distance of
the binary expansions is zero, otherwise the bit length of the XOR distance.
The `totalBits` argument is accepted but unused, exactly as in the source. -/
def getGeoBucketIndex (hashA hashB : List Char) (totalBits : Nat) : Nat :=
  let binaryA := toBinary hashA
  let binaryB := toBinary hashB
  let dist := xorDistance binaryA binaryB
  if dist = 0 then 0 else countBits dist

/-! ## C7: bucket index versus first differing bit -/

/-- Mathematical value of the XOR distance (no modular reduction): the sum of
`2 ^ (L - 1 - i)` over the differing positions `i`, where `L` is the length of
the common prefix. -/
def xdPure : List Bool → List Bool → Nat
  | a :: as, b :: bs =>
      (if a ≠ b then 2 ^ (min as.length bs.length) else 0) + xdPure as bs
  | _, _ => 0

lemma xdPure_cons (a b : Bool) (as bs : List Bool) :
    xdPure (a :: as) (b :: bs)
      = (if a ≠ b then 2 ^ (min as.length bs.length) else 0) + xdPure as bs := rfl

lemma xdPure_lt : ∀ as bs : List Bool, xdPure as bs < 2 ^ (min as.length bs.length)
  | [], bs => by cases bs <;> simp [xdPure]
  | _ :: _, [] => by simp [xdPure]
  | a :: as, b :: bs => by
      have ih := xdPure_lt as bs
      have hmin : min (List.length (a :: as)) (List.length (b :: bs))
          = min as.length bs.length + 1 := by simp only [List.length_cons]; omega
      rw [hmin, pow_succ, xdPure_cons]
      by_cases h : a = b
      · rw [if_neg (by simp [h])]; omega
      · rw [if_pos h]; omega

lemma xorDistanceAux_cons (L : Nat) (a b : Bool) (as bs : List Bool) (i d : Nat) :
    xorDistanceAux L (a :: as) (b :: bs) i d
      = xorDistanceAux L as bs (i + 1)
          (if a ≠ b then (d + (1 <<< (L - i - 1)) % UINT64MOD) % UINT64MOD else d) := rfl

lemma xorDistanceAux_eq : ∀ (as bs : List Bool) (L i d : Nat),
    L = i + min as.length bs.length → L ≤ 64 → d + xdPure as bs < UINT64MOD →
    xorDistanceAux L as bs i d = d + xdPure as bs
  | [], bs, L, i, d => by intro _ _ _; cases bs <;> simp [xorDistanceAux, xdPure]
  | _ :: _, [], L, i, d => by intro _ _ _; simp [xorDistanceAux, xdPure]
  | a :: as, b :: bs, L, i, d => by
      intro hL h64 hd
      have hmin : min (List.length (a :: as)) (List.length (b :: bs))
          = min as.length bs.length + 1 := by simp only [List.length_cons]; omega
      rw [hmin] at hL
      rw [xorDistanceAux_cons]
      by_cases h : a = b
      · rw [if_neg (by simp [h])]
        rw [xdPure_cons, if_neg (by simp [h])] at hd ⊢
        simp only [Nat.zero_add] at hd ⊢
        exact xorDistanceAux_eq as bs L (i + 1) d (by omega) h64 hd
      · rw [if_pos h]
        rw [xdPure_cons, if_pos h] at hd ⊢
        have hexp : L - i - 1 = min as.length bs.length := by omega
        have hpow : (2 : Nat) ^ min as.length bs.length < UINT64MOD := by
          have h1 : min as.length bs.length < 64 := by omega
          exact Nat.pow_lt_pow_right (by norm_num) h1
        have hshift : (1 <<< (L - i - 1)) % UINT64MOD = 2 ^ min as.length bs.length := by
          rw [hexp, Nat.shiftLeft_eq, one_mul]
          exact Nat.mod_eq_of_lt hpow
        have hxnn : 0 ≤ xdPure as bs := Nat.zero_le _
        have hsum : (d + 2 ^ min as.length bs.length) % UINT64MOD
            = d + 2 ^ min as.length bs.length := by
          apply Nat.mod_eq_of_lt; omega
        rw [hshift, hsum]
        have := xorDistanceAux_eq as bs L (i + 1) (d + 2 ^ min as.length bs.length)
          (by omega) h64 (by omega)
        rw [this]; ring

/-- In the overflow-free regime (common length at most 64 bits) the Go `uint`
XOR distance agrees with the mathematical one. -/
lemma xorDistance_eq_xdPure (a b : List Bool) (h : min a.length b.length ≤ 64) :
    xorDistance a b = xdPure a b := by
  have hb : xdPure a b < UINT64MOD := by
    have h1 := xdPure_lt a b
    have h2 : (2 : Nat) ^ min a.length b.length ≤ 2 ^ 64 :=
      Nat.pow_le_pow_right (by norm_num) h
    calc xdPure a b < 2 ^ min a.length b.length := h1
      _ ≤ 2 ^ 64 := h2
  simpa using xorDistanceAux_eq a b (min a.length b.length) 0 0 (by omega) h (by simpa using hb)

lemma xdPure_eq_zero_iff : ∀ as bs : List Bool, as.length = bs.length →
    (xdPure as bs = 0 ↔ as = bs)
  | [], [] => by simp [xdPure]
  | [], _ :: _ => by simp
  | _ :: _, [] => by simp
  | a :: as, b :: bs => by
      intro hlen
      simp only [List.length_cons, Nat.add_right_cancel_iff] at hlen
      rw [xdPure_cons]
      by_cases h : a = b
      · rw [if_neg (by simp [h])]
        simpa [h] using xdPure_eq_zero_iff as bs hlen
      · rw [if_pos h]
        have h2 : 0 < (2 : Nat) ^ min as.length bs.length := pow_pos (by norm_num) _
        constructor
        · intro hz; exact absurd hz (by omega)
        · intro hz
          injection hz with h1 _
          exact absurd h1 h

lemma xd_firstDiffAux : ∀ (as bs : List Bool) (i : Nat), as.length = bs.length → as ≠ bs →
    ∃ p : Nat, p < as.length ∧ firstDiffBitPosAux as bs i = ((i + p : Nat) : Int) ∧
      2 ^ (as.length - p - 1) ≤ xdPure as bs ∧ xdPure as bs < 2 ^ (as.length - p)
  | [], [], _ => by intro _ h; exact absurd rfl h
  | [], _ :: _, _ => by intro h; simp at h
  | _ :: _, [], _ => by intro h; simp at h
  | a :: as, b :: bs, i => by
      intro hlen hne
      simp only [List.length_cons, Nat.add_right_cancel_iff] at hlen
      have hmin : min as.length bs.length = as.length := by omega
      have hfc : firstDiffBitPosAux (a :: as) (b :: bs) i
          = if a ≠ b then (i : Int) else firstDiffBitPosAux as bs (i + 1) := rfl
      by_cases h : a = b
      · have htne : as ≠ bs := fun hc => hne (by rw [h, hc])
        obtain ⟨p, hp, haux, hlo, hhi⟩ := xd_firstDiffAux as bs (i + 1) hlen htne
        have hx : xdPure (a :: as) (b :: bs) = xdPure as bs := by
          rw [xdPure_cons, if_neg (by simp [h]), Nat.zero_add]
        refine ⟨p + 1, by simp only [List.length_cons]; omega, ?_, ?_, ?_⟩
        · rw [hfc, if_neg (by simp [h]), haux]
          congr 1; omega
        · rw [hx]
          have he : List.length (a :: as) - (p + 1) - 1 = as.length - p - 1 := by
            simp only [List.length_cons]; omega
          rw [he]; exact hlo
        · rw [hx]
          have he : List.length (a :: as) - (p + 1) = as.length - p := by
            simp only [List.length_cons]; omega
          rw [he]; exact hhi
      · have hx : xdPure (a :: as) (b :: bs) = 2 ^ min as.length bs.length + xdPure as bs := by
          rw [xdPure_cons, if_pos h]
        refine ⟨0, by simp, ?_, ?_, ?_⟩
        · rw [hfc, if_pos h]; simp
        · rw [hx, hmin]
          have he : List.length (a :: as) - 0 - 1 = as.length := by
            simp only [List.length_cons]; omega
          rw [he]; omega
        · have hrest := xdPure_lt as bs
          rw [hmin] at hrest
          rw [hx, hmin]
          have he : List.length (a :: as) - 0 = as.length + 1 := by
            simp only [List.length_cons]; omega
          rw [he, pow_succ]
          omega

lemma countBitsAux_zero : ∀ f, countBitsAux f 0 = 0
  | 0 => rfl
  | _ + 1 => by simp [countBitsAux]

lemma countBitsAux_succ (f d : Nat) :
    countBitsAux (f + 1) d = if d = 0 then 0 else countBitsAux f (d / 2) + 1 := rfl

lemma countBitsAux_congr (d : Nat) : ∀ f g, d ≤ f → d ≤ g → countBitsAux f d = countBitsAux g d := by
  induction d using Nat.strong_induction_on with
  | _ d ih =>
    intro f g hf hg
    rcases Nat.eq_zero_or_pos d with hd | hd
    · subst hd; rw [countBitsAux_zero, countBitsAux_zero]
    · obtain ⟨f', rfl⟩ : ∃ f', f = f' + 1 := ⟨f - 1, by omega⟩
      obtain ⟨g', rfl⟩ : ∃ g', g = g' + 1 := ⟨g - 1, by omega⟩
      have hlt : d / 2 < d := Nat.div_lt_self hd (by norm_num)
      rw [countBitsAux_succ, countBitsAux_succ, if_neg (by omega), if_neg (by omega)]
      rw [ih (d / 2) hlt f' g' (by omega) (by omega)]

lemma countBits_eq_succ (n : Nat) (h : n ≠ 0) : countBits n = countBits (n / 2) + 1 := by
  obtain ⟨m, rfl⟩ : ∃ m, n = m + 1 := ⟨n - 1, by omega⟩
  show countBitsAux (m + 1) (m + 1) = _
  rw [countBitsAux_succ, if_neg (by omega)]
  congr 1
  exact countBitsAux_congr ((m + 1) / 2) m ((m + 1) / 2) (by omega) (le_refl _)

lemma countBits_eq : ∀ (k n : Nat), 2 ^ k ≤ n → n < 2 ^ (k + 1) → countBits n = k + 1 := by
  intro k
  induction k with
  | zero =>
    intro n h1 h2
    have hn : n = 1 := by norm_num at h1 h2; omega
    subst hn; decide
  | succ k ih =>
    intro n h1 h2
    have h2p : 0 < (2 : Nat) ^ (k + 1) := pow_pos (by norm_num) _
    have hn : n ≠ 0 := by omega
    rw [countBits_eq_succ n hn]
    have h1' : 2 ^ k ≤ n / 2 := by
      rw [Nat.le_div_iff_mul_le (by norm_num)]
      calc 2 ^ k * 2 = 2 ^ (k + 1) := by ring
        _ ≤ n := h1
    have h2' : n / 2 < 2 ^ (k + 1) := by
      rw [Nat.div_lt_iff_lt_mul (by norm_num)]
      calc n < 2 ^ (k + 1 + 1) := h2
        _ = 2 ^ (k + 1) * 2 := by ring
    rw [ih (n / 2) h1' h2']

lemma charToBits_of_mem {c : Char} (h : c ∈ base32Charset) :
    charToBits c = bits5 (base32Charset.indexOf c) := by
  have hnn : (0 : Int) ≤ (base32Charset.indexOf c : Int) := Int.natCast_nonneg _
  have hne : ((base32Charset.indexOf c : Int)) ≠ -1 := by omega
  simp [charToBits, indexRune, h, hne]

lemma charToBits_length (c : Char) : (charToBits c).length = 5 := by
  simp [charToBits, bits5]

lemma bits5_injOn : ∀ i < 32, ∀ j < 32, bits5 i = bits5 j → i = j := by decide

lemma charToBits_injOn {c₁ c₂ : Char} (h₁ : c₁ ∈ base32Charset) (h₂ : c₂ ∈ base32Charset)
    (h : charToBits c₁ = charToBits c₂) : c₁ = c₂ := by
  rw [charToBits_of_mem h₁, charToBits_of_mem h₂] at h
  have l₁ : base32Charset.indexOf c₁ < 32 := List.indexOf_lt_length.mpr h₁
  have l₂ : base32Charset.indexOf c₂ < 32 := List.indexOf_lt_length.mpr h₂
  exact (List.indexOf_inj h₁ h₂).mp (bits5_injOn _ l₁ _ l₂ h)

lemma toBinary_length (h : List Char) : (toBinary h).length = 5 * h.length := by
  induction h with
  | nil => simp [toBinary]
  | cons c cs ih =>
    simp only [toBinary, List.flatMap_cons] at ih ⊢
    simp [charToBits_length, ih]; ring

lemma toBinary_injOn : ∀ (a b : List Char), (∀ c ∈ a, c ∈ base32Charset) →
    (∀ c ∈ b, c ∈ base32Charset) → a.length = b.length → toBinary a = toBinary b → a = b
  | [], [], _, _, _, _ => rfl
  | [], _ :: _, _, _, h, _ => by simp at h
  | _ :: _, [], _, _, h, _ => by simp at h
  | x :: xs, y :: ys, hx, hy, hlen, heq => by
      simp only [toBinary, List.flatMap_cons] at heq
      have hlb : (charToBits x).length = (charToBits y).length := by
        rw [charToBits_length, charToBits_length]
      obtain ⟨h1, h2⟩ := List.append_inj heq hlb
      have hxy : x = y := charToBits_injOn (hx x (by simp)) (hy y (by simp)) h1
      have : xs = ys := toBinary_injOn xs ys (fun c hc => hx c (by simp [hc]))
        (fun c hc => hy c (by simp [hc])) (by simpa using hlen) h2
      rw [hxy, this]

/-- C7 (amended): for Geohash strings over the Base32 alphabet of equal length
`prec ≤ 12` with `totalBits = 5 * prec`, the XOR-distance-highest-bit bucket
computation returns `0` exactly on equal hashes and otherwise equals
`totalBits - firstDiffBitPos` of the binary expansions.  (For `prec ≥ 13` the
Go `uint` shift `1 << 64` overflows to `0` and the equivalence fails; see the
counterexample.) -/
theorem getGeoBucketIndex_eq_firstDiffBit (a b : List Char) (prec : Nat)
    (ha : ∀ c ∈ a, c ∈ base32Charset) (hb : ∀ c ∈ b, c ∈ base32Charset)
    (hla : a.length = prec) (hlb : b.length = prec) (hprec : prec ≤ 12) :
    (getGeoBucketIndex a b (5 * prec) = 0 ↔ a = b) ∧
    (a ≠ b → (getGeoBucketIndex a b (5 * prec) : Int)
        = (5 * prec : Int) - firstDiffBitPos (toBinary a) (toBinary b)) := by
  have hLa : (toBinary a).length = 5 * prec := by rw [toBinary_length, hla]
  have hLb : (toBinary b).length = 5 * prec := by rw [toBinary_length, hlb]
  have hmin : min (toBinary a).length (toBinary b).length ≤ 64 := by
    rw [hLa, hLb]; omega
  have hxd : xorDistance (toBinary a) (toBinary b) = xdPure (toBinary a) (toBinary b) :=
    xorDistance_eq_xdPure _ _ hmin
  by_cases hab : a = b
  · subst hab
    have hz : xdPure (toBinary a) (toBinary a) = 0 := (xdPure_eq_zero_iff _ _ rfl).mpr rfl
    constructor
    · simp [getGeoBucketIndex, hxd, hz]
    · intro h; exact absurd rfl h
  · have hbne : toBinary a ≠ toBinary b :=
      fun hc => hab (toBinary_injOn a b ha hb (hla.trans hlb.symm) hc)
    obtain ⟨p, hp, haux, hlo, hhi⟩ := xd_firstDiffAux (toBinary a) (toBinary b) 0
      (hLa.trans hLb.symm) hbne
    rw [hLa] at hp hlo hhi
    have hpow : 0 < (2 : Nat) ^ (5 * prec - p - 1) := pow_pos (by norm_num) _
    have hdz : xdPure (toBinary a) (toBinary b) ≠ 0 := by omega
    have hcb : countBits (xdPure (toBinary a) (toBinary b)) = 5 * prec - p := by
      have heq : 5 * prec - p - 1 + 1 = 5 * prec - p := by omega
      have hcc := countBits_eq (5 * prec - p - 1) (xdPure (toBinary a) (toBinary b)) hlo
        (by rw [heq]; exact hhi)
      rw [hcc, heq]
    have hval : getGeoBucketIndex a b (5 * prec) = 5 * prec - p := by
      simp only [getGeoBucketIndex, hxd, if_neg hdz, hcb]
    constructor
    · rw [hval]
      constructor
      · intro h0; exact absurd h0 (by omega)
      · intro h; exact absurd h hab
    · intro _
      rw [hval, firstDiffBitPos, haux]
      push_cast
      omega



/-- Concrete 13-character Geohash starting with the character h (Base32 index
16, top bit set), the rest zeros. -/
def c7hashA : List Char := 'h' :: List.replicate 12 '0'

/-- Concrete 13-character Geohash of all zeros. -/
def c7hashB : List Char := List.replicate 13 '0'

/-- C7 counterexample: at precision 13 (65 bits) the Go shift `1 << 64`
overflows the 64-bit `uint` to `0`, so two distinct 13-character hashes whose
only differing bit is the leading one get bucket index `0`, refuting the
claimed equivalence "returns 0 iff the hashes are equal" as stated for all
precisions. -/
theorem getGeoBucketIndex_overflow_counterexample :
    (∀ c ∈ c7hashA, c ∈ base32Charset) ∧ (∀ c ∈ c7hashB, c ∈ base32Charset) ∧
    c7hashA.length = 13 ∧ c7hashB.length = 13 ∧ c7hashA ≠ c7hashB ∧
    getGeoBucketIndex c7hashA c7hashB (5 * 13) = 0 := by
  refine ⟨by decide, by decide, by decide, by decide, by decide, ?_⟩
  decide

/-- Witness for the amended C7 theorem at the one-character hashes 0 and 1. -/
theorem getGeoBucketIndex_eq_firstDiffBit_witness :
    (getGeoBucketIndex ['0'] ['1'] (5 * 1) = 0 ↔ (['0'] : List Char) = ['1']) ∧
    ((['0'] : List Char) ≠ ['1'] → (getGeoBucketIndex ['0'] ['1'] (5 * 1) : Int)
        = (5 * 1 : Int) - firstDiffBitPos (toBinary ['0']) (toBinary ['1'])) :=
  getGeoBucketIndex_eq_firstDiffBit ['0'] ['1'] 1 (by decide) (by decide)
    (by decide) (by decide) (by decide)
/-! ## Graph (directed multigraph with deduped adjacency) -/

/-- The network topology graph: node count `N`, edge counter `M` (a Go `int`,
so it may go negative), and inbound/outbound adjacency lists. -/
structure Graph where
  N : Nat
  M : Int
  InBound : List (List Nat)
  OutBound : List (List Nat)

/-- `NewGraph(n)`: empty adjacency lists, zero edge counter. -/
def newGraph (n : Nat) : Graph :=
  { N := n, M := 0, InBound := List.replicate n [], OutBound := List.replicate n [] }

/-- `Graph.AddEdge(u, v)`: rejects self-loops and duplicates (scanning
`OutBound[u]`), otherwise appends to both adjacency lists and increments `M`.
Returns the updated graph and whether the edge was inserted. -/
def addEdge (g : Graph) (u v : Nat) : Graph × Bool :=
  if u = v then (g, false)
  else if v ∈ g.OutBound.getD u [] then (g, false)
  else ({ g with OutBound := g.OutBound.set u (g.OutBound.getD u [] ++ [v]),
                 InBound := g.InBound.set v (g.InBound.getD v [] ++ [u]),
                 M := g.M + 1 }, true)

/-- The swap-with-last removal used by `Graph.DelEdge`: overwrite the first
occurrence of `target` with the last element and drop the last slot; a list
without `target` is returned unchanged. -/
def swapRemove (l : List Nat) (target : Nat) : List Nat :=
  if target ∈ l then (l.set (l.indexOf target) (l.getLast?.getD 0)).dropLast else l

/-- `Graph.DelEdge(u, v)`: swap-remove `v` from `OutBound[u]` and `u` from
`InBound[v]`, then decrement `M` unconditionally (as the source does, even
when the edge was not present). -/
def delEdge (g : Graph) (u v : Nat) : Graph :=
  { g with OutBound := g.OutBound.set u (swapRemove (g.OutBound.getD u []) v),
           InBound := g.InBound.set v (swapRemove (g.InBound.getD v []) u),
           M := g.M - 1 }

/-- Sum of the lengths of all outbound adjacency lists. -/
def sumOutDeg (g : Graph) : Nat :=
  (g.OutBound.map List.length).sum

/-- An abstract `AddEdge`/`DelEdge` call. -/
inductive GraphOp where
  | add : Nat → Nat → GraphOp
  | del : Nat → Nat → GraphOp

/-- Apply one operation (the Boolean result of `AddEdge` is discarded). -/
def applyOp (g : Graph) : GraphOp → Graph
  | .add u v => (addEdge g u v).1
  | .del u v => delEdge g u v

/-- Apply a sequence of operations left to right. -/
def applyOps (g : Graph) (ops : List GraphOp) : Graph :=
  ops.foldl applyOp g

/-- An operation addresses only nodes below `n` (out-of-range indices panic in
the Go source). -/
def opValid (n : Nat) : GraphOp → Prop
  | .add u v => u < n ∧ v < n
  | .del u v => u < n ∧ v < n

/-- Every `DelEdge` call in the sequence targets an edge present at the time
of the call. -/
def delsPresent : Graph → List GraphOp → Prop
  | _, [] => True
  | g, op :: ops =>
      (match op with
       | .del u v => v ∈ g.OutBound.getD u []
       | .add _ _ => True) ∧ delsPresent (applyOp g op) ops

/-! ### C6: list helpers -/

lemma getD_set_self {α : Type} (l : List α) (i : Nat) (a d : α) (h : i < l.length) :
    (l.set i a).getD i d = a := by
  simp [List.getD_eq_getElem?_getD, List.getElem?_set_self h]

lemma getD_set_ne {α : Type} (l : List α) (i j : Nat) (a d : α) (h : i ≠ j) :
    (l.set i a).getD j d = l.getD j d := by
  simp [List.getD_eq_getElem?_getD, List.getElem?_set_ne h]

lemma getD_replicate_nil (n u : Nat) :
    (List.replicate n ([] : List Nat)).getD u [] = [] := by
  rcases Nat.lt_or_ge u n with h | h
  · simp [List.getD_eq_getElem?_getD, List.getElem?_replicate, h]
  · simp [List.getD_eq_getElem?_getD, List.getElem?_replicate, Nat.not_lt.mpr h]

lemma sum_map_length_set (l : List (List Nat)) (i : Nat) (x : List Nat) :
    i < l.length →
    ((l.set i x).map List.length).sum + (l.getD i []).length
      = (l.map List.length).sum + x.length := by
  induction l generalizing i with
  | nil => intro h; simp at h
  | cons a as ih =>
    intro h
    cases i with
    | zero => simp [List.getD_cons_zero]; omega
    | succ i =>
      have hi : i < as.length := by simpa using h
      have := ih i hi
      simp only [List.set_cons_succ, List.map_cons, List.sum_cons, List.getD_cons_succ]
      omega

lemma swapRemove_perm : ∀ (l : List Nat) (v : Nat), v ∈ l → (swapRemove l v).Perm (l.erase v)
  | a :: as, v, h => by
      rw [swapRemove, if_pos h]
      by_cases hav : a = v
      · subst hav
        rw [List.indexOf_cons_self, List.erase_cons_head]
        cases as with
        | nil => simp
        | cons b bs =>
            have hbs : (b :: bs) ≠ [] := by simp
            have hgl : (a :: b :: bs).getLast?.getD 0 = (b :: bs).getLast hbs := by
              rw [List.getLast?_cons_cons, List.getLast?_eq_getLast _ hbs, Option.getD_some]
            rw [hgl, List.set_cons_zero,
                List.dropLast_cons_of_ne_nil hbs]
            have heq : (b :: bs).dropLast ++ [(b :: bs).getLast hbs] = b :: bs :=
              List.dropLast_concat_getLast hbs
            have hperm : ((b :: bs).getLast hbs :: (b :: bs).dropLast).Perm
                ((b :: bs).dropLast ++ [(b :: bs).getLast hbs]) :=
              (List.perm_append_singleton _ _).symm
            rw [heq] at hperm
            exact hperm
      · have hvas : v ∈ as := by
          rcases List.mem_cons.mp h with h1 | h1
          · exact absurd h1.symm hav
          · exact h1
        have hasne : as ≠ [] := List.ne_nil_of_mem hvas
        have hidx : (a :: as).indexOf v = as.indexOf v + 1 := by
          rw [List.indexOf_cons_ne _ hav]
        have hgl : (a :: as).getLast?.getD 0 = as.getLast?.getD 0 := by
          obtain ⟨b, bs, rfl⟩ := List.exists_cons_of_ne_nil hasne
          rw [List.getLast?_cons_cons]
        have hset : (a :: as).set ((a :: as).indexOf v) ((a :: as).getLast?.getD 0)
            = a :: as.set (as.indexOf v) (as.getLast?.getD 0) := by
          rw [hidx, hgl, List.set_cons_succ]
        rw [hset]
        have hsetne : as.set (as.indexOf v) (as.getLast?.getD 0) ≠ [] := by
          intro hc
          have hlc := congrArg List.length hc
          simp at hlc
          exact hasne hlc
        rw [List.dropLast_cons_of_ne_nil hsetne,
            List.erase_cons_tail (by simpa using hav)]
        have ihp := swapRemove_perm as v hvas
        rw [swapRemove, if_pos hvas] at ihp
        exact ihp.cons a

lemma swapRemove_not_mem (l : List Nat) (v : Nat) (h : v ∉ l) : swapRemove l v = l := by
  rw [swapRemove, if_neg h]

lemma swapRemove_nodup (l : List Nat) (v : Nat) (h : l.Nodup) : (swapRemove l v).Nodup := by
  by_cases hv : v ∈ l
  · exact ((swapRemove_perm l v hv).nodup_iff).mpr (h.erase v)
  · rw [swapRemove_not_mem l v hv]; exact h

lemma swapRemove_mem_iff (l : List Nat) (v x : Nat) (h : l.Nodup) :
    x ∈ swapRemove l v ↔ x ∈ l ∧ x ≠ v := by
  by_cases hv : v ∈ l
  · rw [(swapRemove_perm l v hv).mem_iff, h.mem_erase_iff]
    tauto
  · rw [swapRemove_not_mem l v hv]
    constructor
    · intro hx
      refine ⟨hx, ?_⟩
      intro hc; subst hc; exact hv hx
    · exact fun hx => hx.1

lemma swapRemove_length (l : List Nat) (v : Nat) (hv : v ∈ l) :
    (swapRemove l v).length = l.length - 1 := by
  rw [(swapRemove_perm l v hv).length_eq, List.length_erase_of_mem hv]

/-! ### C6: the graph invariant -/

/-- The mutual-consistency invariant of the adjacency structure, together with
the claimed edge-count identity. -/
structure GraphInv (g : Graph) : Prop where
  outLen : g.OutBound.length = g.N
  inLen : g.InBound.length = g.N
  mutualMem : ∀ u v, v ∈ g.OutBound.getD u [] ↔ u ∈ g.InBound.getD v []
  outNodup : ∀ u, (g.OutBound.getD u []).Nodup
  inNodup : ∀ v, (g.InBound.getD v []).Nodup
  noSelfLoop : ∀ u, u ∉ g.OutBound.getD u []
  outRange : ∀ u v, v ∈ g.OutBound.getD u [] → u < g.N ∧ v < g.N
  edgeCount : g.M = (sumOutDeg g : Int)

lemma newGraph_inv (n : Nat) : GraphInv (newGraph n) := by
  have hout : ∀ u, (newGraph n).OutBound.getD u [] = [] := fun u => getD_replicate_nil n u
  have hin : ∀ u, (newGraph n).InBound.getD u [] = [] := fun u => getD_replicate_nil n u
  refine ⟨by simp [newGraph], by simp [newGraph], ?_, ?_, ?_, ?_, ?_, ?_⟩
  · intro u v; rw [hout u, hin v]; simp
  · intro u; rw [hout u]; exact List.nodup_nil
  · intro v; rw [hin v]; exact List.nodup_nil
  · intro u; rw [hout u]; exact List.not_mem_nil u
  · intro u v hv; rw [hout u] at hv; exact absurd hv (List.not_mem_nil v)
  · show (0 : Int) = (sumOutDeg (newGraph n) : Int)
    simp [sumOutDeg, newGraph, List.map_replicate, List.sum_replicate]

lemma addEdge_inv (g : Graph) (u v : Nat) (hu : u < g.N) (hv : v < g.N)
    (h : GraphInv g) : GraphInv (addEdge g u v).1 := by
  rw [addEdge]
  by_cases huv : u = v
  · rw [if_pos huv]; exact h
  · rw [if_neg huv]
    by_cases hmem : v ∈ g.OutBound.getD u []
    · rw [if_pos hmem]; exact h
    · rw [if_neg hmem]
      have hul : u < g.OutBound.length := by rw [h.outLen]; exact hu
      have hvl : v < g.InBound.length := by rw [h.inLen]; exact hv
      have hout : ∀ x, (g.OutBound.set u (g.OutBound.getD u [] ++ [v])).getD x []
          = if x = u then g.OutBound.getD u [] ++ [v] else g.OutBound.getD x [] := by
        intro x
        by_cases hx : x = u
        · subst hx; rw [if_pos rfl]; exact getD_set_self _ _ _ _ hul
        · rw [if_neg hx]; exact getD_set_ne _ _ _ _ _ (fun hc => hx hc.symm)
      have hin : ∀ y, (g.InBound.set v (g.InBound.getD v [] ++ [u])).getD y []
          = if y = v then g.InBound.getD v [] ++ [u] else g.InBound.getD y [] := by
        intro y
        by_cases hy : y = v
        · subst hy; rw [if_pos rfl]; exact getD_set_self _ _ _ _ hvl
        · rw [if_neg hy]; exact getD_set_ne _ _ _ _ _ (fun hc => hy hc.symm)
      have huin : u ∉ g.InBound.getD v [] := fun hc => hmem ((h.mutualMem u v).mpr hc)
      refine ⟨?_, ?_, ?_, ?_, ?_, ?_, ?_, ?_⟩
      · simpa using h.outLen
      · simpa using h.inLen
      · intro x y
        rw [hout x, hin y]
        by_cases hx : x = u <;> by_cases hy : y = v
        · rw [if_pos hx, if_pos hy, hx, hy]; simp
        · rw [if_pos hx, if_neg hy, hx]
          simp only [List.mem_append, List.mem_singleton]
          rw [h.mutualMem u y]
          have hyv : ¬ y = v := hy
          tauto
        · rw [if_neg hx, if_pos hy, hy]
          simp only [List.mem_append, List.mem_singleton]
          rw [h.mutualMem x v]
          have hxu : ¬ x = u := hx
          tauto
        · rw [if_neg hx, if_neg hy]; exact h.mutualMem x y
      · intro x
        rw [hout x]
        by_cases hx : x = u
        · rw [if_pos hx]
          exact List.Nodup.append (h.outNodup u) (List.nodup_singleton v)
            (by simpa using hmem)
        · rw [if_neg hx]; exact h.outNodup x
      · intro y
        rw [hin y]
        by_cases hy : y = v
        · rw [if_pos hy]
          exact List.Nodup.append (h.inNodup v) (List.nodup_singleton u)
            (by simpa using huin)
        · rw [if_neg hy]; exact h.inNodup y
      · intro x
        rw [hout x]
        by_cases hx : x = u
        · rw [if_pos hx, hx]
          simp only [List.mem_append, List.mem_singleton]
          push_neg
          exact ⟨h.noSelfLoop u, huv⟩
        · rw [if_neg hx]; exact h.noSelfLoop x
      · intro x y hy
        rw [hout x] at hy
        by_cases hx : x = u
        · rw [if_pos hx] at hy
          rw [hx]
          rcases List.mem_append.mp hy with h1 | h1
          · exact h.outRange u y h1
          · have hyv : y = v := by simpa using h1
            rw [hyv]; exact ⟨hu, hv⟩
        · rw [if_neg hx] at hy; exact h.outRange x y hy
      · show g.M + 1 = _
        have hsum : sumOutDeg { g with
              OutBound := g.OutBound.set u (g.OutBound.getD u [] ++ [v]),
              InBound := g.InBound.set v (g.InBound.getD v [] ++ [u]),
              M := g.M + 1 }
            = sumOutDeg g + 1 := by
          show ((g.OutBound.set u (g.OutBound.getD u [] ++ [v])).map List.length).sum
              = (g.OutBound.map List.length).sum + 1
          have hs := sum_map_length_set g.OutBound u (g.OutBound.getD u [] ++ [v]) hul
          rw [List.length_append, List.length_singleton] at hs
          omega
        rw [hsum, h.edgeCount]
        push_cast
        ring

lemma delEdge_inv (g : Graph) (u v : Nat) (hpres : v ∈ g.OutBound.getD u [])
    (h : GraphInv g) : GraphInv (delEdge g u v) := by
  obtain ⟨hu, hv⟩ := h.outRange u v hpres
  have hul : u < g.OutBound.length := by rw [h.outLen]; exact hu
  have hvl : v < g.InBound.length := by rw [h.inLen]; exact hv
  have huin : u ∈ g.InBound.getD v [] := (h.mutualMem u v).mp hpres
  have hout : ∀ x, (delEdge g u v).OutBound.getD x []
      = if x = u then swapRemove (g.OutBound.getD u []) v else g.OutBound.getD x [] := by
    intro x
    by_cases hx : x = u
    · subst hx; rw [if_pos rfl]; exact getD_set_self _ _ _ _ hul
    · rw [if_neg hx]; exact getD_set_ne _ _ _ _ _ (fun hc => hx hc.symm)
  have hin : ∀ y, (delEdge g u v).InBound.getD y []
      = if y = v then swapRemove (g.InBound.getD v []) u else g.InBound.getD y [] := by
    intro y
    by_cases hy : y = v
    · subst hy; rw [if_pos rfl]; exact getD_set_self _ _ _ _ hvl
    · rw [if_neg hy]; exact getD_set_ne _ _ _ _ _ (fun hc => hy hc.symm)
  refine ⟨?_, ?_, ?_, ?_, ?_, ?_, ?_, ?_⟩
  · show (g.OutBound.set u _).length = g.N
    simpa using h.outLen
  · show (g.InBound.set v _).length = g.N
    simpa using h.inLen
  · intro x y
    rw [hout x, hin y]
    by_cases hx : x = u <;> by_cases hy : y = v
    · rw [if_pos hx, if_pos hy, hx, hy,
          swapRemove_mem_iff _ _ _ (h.outNodup u), swapRemove_mem_iff _ _ _ (h.inNodup v)]
      simp
    · rw [if_pos hx, if_neg hy, hx, swapRemove_mem_iff _ _ _ (h.outNodup u)]
      rw [h.mutualMem u y]
      have hyv : ¬ y = v := hy
      tauto
    · rw [if_neg hx, if_pos hy, hy, swapRemove_mem_iff _ _ _ (h.inNodup v)]
      rw [h.mutualMem x v]
      have hxu : ¬ x = u := hx
      tauto
    · rw [if_neg hx, if_neg hy]; exact h.mutualMem x y
  · intro x
    rw [hout x]
    by_cases hx : x = u
    · rw [if_pos hx]; exact swapRemove_nodup _ _ (h.outNodup u)
    · rw [if_neg hx]; exact h.outNodup x
  · intro y
    rw [hin y]
    by_cases hy : y = v
    · rw [if_pos hy]; exact swapRemove_nodup _ _ (h.inNodup v)
    · rw [if_neg hy]; exact h.inNodup y
  · intro x
    rw [hout x]
    by_cases hx : x = u
    · rw [if_pos hx, hx, swapRemove_mem_iff _ _ _ (h.outNodup u)]
      exact fun hc => h.noSelfLoop u hc.1
    · rw [if_neg hx]; exact h.noSelfLoop x
  · intro x y hy
    rw [hout x] at hy
    by_cases hx : x = u
    · rw [if_pos hx, swapRemove_mem_iff _ _ _ (h.outNodup u)] at hy
      rw [hx]
      exact h.outRange u y hy.1
    · rw [if_neg hx] at hy; exact h.outRange x y hy
  · show g.M - 1 = _
    have hsum : sumOutDeg (delEdge g u v) = sumOutDeg g - 1 := by
      show ((g.OutBound.set u (swapRemove (g.OutBound.getD u []) v)).map List.length).sum
          = (g.OutBound.map List.length).sum - 1
      have hs := sum_map_length_set g.OutBound u (swapRemove (g.OutBound.getD u []) v) hul
      have hlen := swapRemove_length (g.OutBound.getD u []) v hpres
      have hpos : 0 < (g.OutBound.getD u []).length :=
        List.length_pos.mpr (List.ne_nil_of_mem hpres)
      omega
    rw [hsum, h.edgeCount]
    have hle : 1 ≤ sumOutDeg g := by
      have hpos : 0 < (g.OutBound.getD u []).length :=
        List.length_pos.mpr (List.ne_nil_of_mem hpres)
      have hmemlist : g.OutBound.getD u [] ∈ g.OutBound := by
        have hgd : g.OutBound.getD u [] = g.OutBound[u] := by
          simp [List.getD_eq_getElem?_getD, List.getElem?_eq_getElem hul]
        rw [hgd]
        exact List.getElem_mem hul
      have hml : (g.OutBound.getD u []).length ∈ g.OutBound.map List.length :=
        List.mem_map_of_mem List.length hmemlist
      have hles := List.single_le_sum (fun x _ => Nat.zero_le x) _ hml
      show 1 ≤ (g.OutBound.map List.length).sum
      omega
    omega

lemma applyOp_N (g : Graph) (op : GraphOp) : (applyOp g op).N = g.N := by
  cases op with
  | add u v =>
      show (addEdge g u v).1.N = g.N
      rw [addEdge]
      by_cases huv : u = v
      · rw [if_pos huv]
      · rw [if_neg huv]
        by_cases hmem : v ∈ g.OutBound.getD u []
        · rw [if_pos hmem]
        · rw [if_neg hmem]
  | del u v => rfl

lemma applyOps_inv : ∀ (ops : List GraphOp) (g : Graph), GraphInv g →
    (∀ op ∈ ops, opValid g.N op) → delsPresent g ops → GraphInv (applyOps g ops)
  | [], g, h, _, _ => h
  | op :: ops, g, h, hval, hdel => by
      have hstep : GraphInv (applyOp g op) := by
        cases op with
        | add u v =>
            have hv2 : opValid g.N (GraphOp.add u v) :=
              hval (GraphOp.add u v) (List.mem_cons_self _ _)
            exact addEdge_inv g u v hv2.1 hv2.2 h
        | del u v =>
            exact delEdge_inv g u v hdel.1 h
      have hN : (applyOp g op).N = g.N := applyOp_N g op
      exact applyOps_inv ops (applyOp g op) hstep
        (fun o ho => hN ▸ hval o (by simp [ho]))
        hdel.2

/-- C6 (amended): after any sequence of in-range `AddEdge`/`DelEdge` calls
starting from `NewGraph(n)` in which every `DelEdge` targets an edge present
at the time of the call, the adjacency lists are mutually consistent, have no
self-loops and no duplicates, and `M` equals the sum of the outbound list
lengths.  (Without the presence proviso `DelEdge` still decrements `M` and the
count identity fails; see the counterexample.) -/
theorem graph_ops_invariant (n : Nat) (ops : List GraphOp)
    (hval : ∀ op ∈ ops, opValid n op) (hdel : delsPresent (newGraph n) ops) :
    (∀ u v, v ∈ (applyOps (newGraph n) ops).OutBound.getD u []
        ↔ u ∈ (applyOps (newGraph n) ops).InBound.getD v []) ∧
    (∀ u, u ∉ (applyOps (newGraph n) ops).OutBound.getD u []) ∧
    (∀ u, ((applyOps (newGraph n) ops).OutBound.getD u []).Nodup) ∧
    (applyOps (newGraph n) ops).M = (sumOutDeg (applyOps (newGraph n) ops) : Int) := by
  have h := applyOps_inv ops (newGraph n) (newGraph_inv n) (fun o ho => hval o ho) hdel
  exact ⟨h.mutualMem, h.noSelfLoop, h.outNodup, h.edgeCount⟩

/-- C6 counterexample: a `DelEdge` on an absent edge decrements `M` to `-1`
while all outbound lists stay empty, refuting the unconditional claim that `M`
always equals the sum of the outbound list lengths. -/
theorem graph_delEdge_count_counterexample :
    (∀ op ∈ [GraphOp.del 0 1], opValid 2 op) ∧
    (applyOps (newGraph 2) [GraphOp.del 0 1]).M
      ≠ (sumOutDeg (applyOps (newGraph 2) [GraphOp.del 0 1]) : Int) := by
  constructor
  · intro op hop
    simp only [List.mem_singleton] at hop
    subst hop
    exact ⟨by norm_num, by norm_num⟩
  · decide

/-- Witness for the amended C6 theorem: add edge (0,1), delete it again. -/
theorem graph_ops_invariant_witness :
    (∀ op ∈ [GraphOp.add 0 1, GraphOp.del 0 1], opValid 2 op) ∧
    delsPresent (newGraph 2) [GraphOp.add 0 1, GraphOp.del 0 1] ∧
    ((∀ u v, v ∈ (applyOps (newGraph 2) [GraphOp.add 0 1, GraphOp.del 0 1]).OutBound.getD u []
        ↔ u ∈ (applyOps (newGraph 2) [GraphOp.add 0 1, GraphOp.del 0 1]).InBound.getD v []) ∧
    (∀ u, u ∉ (applyOps (newGraph 2) [GraphOp.add 0 1, GraphOp.del 0 1]).OutBound.getD u []) ∧
    (∀ u, ((applyOps (newGraph 2) [GraphOp.add 0 1, GraphOp.del 0 1]).OutBound.getD u []).Nodup) ∧
    (applyOps (newGraph 2) [GraphOp.add 0 1, GraphOp.del 0 1]).M
      = (sumOutDeg (applyOps (newGraph 2) [GraphOp.add 0 1, GraphOp.del 0 1]) : Int)) := by
  have hval : ∀ op ∈ [GraphOp.add 0 1, GraphOp.del 0 1], opValid 2 op := by
    intro op hop
    rcases List.mem_cons.mp hop with h1 | h1
    · subst h1; exact ⟨by norm_num, by norm_num⟩
    · simp only [List.mem_singleton] at h1
      subst h1; exact ⟨by norm_num, by norm_num⟩
  have hdel : delsPresent (newGraph 2) [GraphOp.add 0 1, GraphOp.del 0 1] := by
    refine ⟨trivial, ?_, trivial⟩
    decide
  exact ⟨hval, hdel, graph_ops_invariant 2 _ hval hdel⟩


/-! ## Vivaldi coordinate update (vivaldi.go) -/

/-- `VivaldiCc = 0.25`. -/
def VivaldiCc : ℚ := 0.25

/-- `VivaldiCe = 0.5`. -/
def VivaldiCe : ℚ := 0.5

/-- `VivaldiMinError = 0.01`. -/
def VivaldiMinError : ℚ := 0.01

/-- A Vivaldi virtual coordinate: Euclidean vector, height, error estimate. -/
structure VivaldiCoordinate where
  Vector : List ℚ
  Height : ℚ
  Error : ℚ

/-- `DistanceVivaldi`: Euclidean vector distance plus both heights.  The
Euclidean distance (a square root, irrational in general) is supplied as the
abstract parameter `euclid`; every theorem below holds for an arbitrary value
of it. -/
def distanceVivaldi (euclid : List ℚ → List ℚ → ℚ) (a b : VivaldiCoordinate) : ℚ :=
  euclid a.Vector b.Vector + a.Height + b.Height

/-- `Observe(vm, peerID, peerCoord, rtt)` acting on the local coordinate of
`vm`: the standard Vivaldi spring update, with the relative error zeroed for
`rtt < 1e-6`, the weight clipped into `[0, 1]`, the error clamped up to
`VivaldiMinError`, the vector moved only when `predictedRTT > 1e-6`, the
height moved only when the height difference exceeds `1e-6` in magnitude, and
the height clamped up to `0` at the end.  (`peerID` is unused by the source
body and kept for signature fidelity.) -/
def observe (euclid : List ℚ → List ℚ → ℚ) (peerID : Nat) (c : VivaldiCoordinate)
    (peerCoord : VivaldiCoordinate) (rtt : ℚ) : VivaldiCoordinate :=
  let predictedRTT := distanceVivaldi euclid c peerCoord
  let relativeError := |predictedRTT - rtt| / rtt
  let relativeError := if rtt < 1 / 1000000 then 0 else relativeError
  let localError := c.Error
  let peerError := peerCoord.Error
  let weight := localError / (localError + peerError)
  let weight := if weight > 1 then 1 else weight
  let weight := if weight < 0 then 0 else weight
  let newError := relativeError * VivaldiCe * weight + localError * (1 - VivaldiCe * weight)
  let newError := if newError < VivaldiMinError then VivaldiMinError else newError
  let delta := VivaldiCc * weight
  let delta := if delta > 1 then 1 else delta
  let force := delta * (rtt - predictedRTT)
  let newVector :=
    if predictedRTT > 1 / 1000000 then
      (List.range c.Vector.length).map (fun i =>
        c.Vector.getD i 0 + force * (c.Vector.getD i 0 - peerCoord.Vector.getD i 0) / predictedRTT)
    else c.Vector
  let heightDiff := c.Height - peerCoord.Height
  let newHeight :=
    if |heightDiff| > 1 / 1000000 then c.Height + force * heightDiff / |heightDiff|
    else c.Height
  let newHeight := if newHeight < 0 then 0 else newHeight
  { Vector := newVector, Height := newHeight, Error := newError }

lemma clampMin_ge (x m : ℚ) : (if x < m then m else x) ≥ m := by
  split_ifs with h
  · exact le_refl m
  · exact le_of_not_lt h

lemma clampZero_nonneg (x : ℚ) : (if x < 0 then 0 else x) ≥ 0 := by
  split_ifs with h
  · exact le_refl 0
  · exact le_of_not_lt h

/-- C9: the Vivaldi update keeps `Error ≥ ERR_MIN = 0.01` and `Height ≥ 0`:
both are enforced by the final clamping steps of `Observe`. -/
theorem observe_error_height_invariant (euclid : List ℚ → List ℚ → ℚ) (peerID : Nat)
    (c peerCoord : VivaldiCoordinate) (rtt : ℚ)
    (hErr : c.Error ≥ VivaldiMinError) (hH : c.Height ≥ 0) (hrtt : rtt ≥ 0) :
    (observe euclid peerID c peerCoord rtt).Error ≥ VivaldiMinError ∧
    (observe euclid peerID c peerCoord rtt).Height ≥ 0 :=
  ⟨clampMin_ge _ _, clampZero_nonneg _⟩

/-- Witness for C9 at a concrete observation. -/
theorem observe_error_height_invariant_witness :
    (observe (fun _ _ => 0) 1 ⟨[0, 0, 0], 0, VivaldiMinError⟩ ⟨[3, 4, 0], 0, 1⟩ 0).Error
        ≥ VivaldiMinError ∧
    (observe (fun _ _ => 0) 1 ⟨[0, 0, 0], 0, VivaldiMinError⟩ ⟨[3, 4, 0], 0, 1⟩ 0).Height ≥ 0 :=
  observe_error_height_invariant (fun _ _ => 0) 1 ⟨[0, 0, 0], 0, VivaldiMinError⟩
    ⟨[3, 4, 0], 0, 1⟩ 0 (le_refl _) (le_refl _) (le_refl _)

/-! ## Mercator overlay state and forwarding (the algorithms package) -/

/-- A broadcast message.  Times are milliseconds, modelled as rationals. -/
structure Message where
  Root : Nat
  Src : Nat
  Dst : Nat
  Step : Nat
  SendTime : ℚ
  RecvTime : ℚ

/-- `KaryMessage`: the per-node K-ary propagation marker. -/
structure KaryMessage where
  RootNode : Int
  IsKary : Bool
deriving DecidableEq

/-- The Mercator algorithm state.  The Go struct additionally stores the
inspection `Graph`, the real and display coordinate slices, the binary hash
cache `NodeGeohashBin` and the prefix tree; none of those fields is read by
`Respond`, `ResetVisited` or `SetRoot`, and they are omitted here (the binary
hashes are recomputed from `NodeGeohash` where the construction needs them).
The Go `GeohashGroups` map is modelled as an association list in insertion
order; the Go map iteration order is unspecified, and no claim settled here
depends on the order of groups. -/
structure Mercator where
  NodeGeohash : List (List Char)
  KBuckets : List (List (List Nat))
  GeohashGroups : List (List Char × List Nat)
  TreeRoot : Nat
  Visited : List (List Bool)
  GeoPrec : Nat
  BucketSize : Nat
  K0Threshold : Nat
  KaryFactor : Nat
  TotalBits : Nat
  KaryMsgInfo : List KaryMessage
deriving DecidableEq

/-- Geohash of node `u`. -/
def geohashOf (m : Mercator) (u : Nat) : List Char :=
  m.NodeGeohash.getD u []

/-- Bucket `b` of node `u`. -/
def bucketOf (m : Mercator) (u b : Nat) : List Nat :=
  (m.KBuckets.getD u []).getD b []

/-- The visited flag `Visited[u][s]`. -/
def visitedAt (m : Mercator) (u s : Nat) : Bool :=
  (m.Visited.getD u []).getD s false

/-- The marker `KaryMsgInfo[u]`. -/
def karyInfoAt (m : Mercator) (u : Nat) : KaryMessage :=
  m.KaryMsgInfo.getD u ⟨-1, false⟩

/-- `ComputeKaryChildren(nodeIdx, totalNodes, k)`: the in-range children
`nodeIdx*k + i` for `i = 1 .. k` of a node in the K-ary tree. -/
def computeKaryChildren (nodeIdx totalNodes k : Nat) : List Nat :=
  ((List.range' 1 k).map (fun i => nodeIdx * k + i)).filter (fun c => c < totalNodes)

/-- Lookup in the Geohash-group map; a missing key yields the empty list, as a
Go map access does. -/
def groupsLookup (groups : List (List Char × List Nat)) (h : List Char) : List Nat :=
  match groups.find? (fun p => p.1 == h) with
  | some p => p.2
  | none => []

/-- Overwrite the value stored for key `h` (models `sort.Ints` sorting the
slice held by the map in place). -/
def groupsSet (groups : List (List Char × List Nat)) (h : List Char) (l : List Nat) :
    List (List Char × List Nat) :=
  groups.map (fun p => if p.1 == h then (p.1, l) else p)

/-- `m.GeohashGroups[hash] = append(m.GeohashGroups[hash], v)`. -/
def groupsAppend (groups : List (List Char × List Nat)) (h : List Char) (v : Nat) :
    List (List Char × List Nat) :=
  if (groups.find? (fun p => p.1 == h)).isSome then
    groups.map (fun p => if p.1 == h then (p.1, p.2 ++ [v]) else p)
  else groups ++ [(h, [v])]

/-- The shared child-forwarding loop of `Respond`: walk the K-ary children of
position `uIdx` inside the sorted same-hash list, appending each child other
than the source to the relay list and marking it with `(markerRoot, true)`. -/
def karyForward (same : List Nat) (uIdx : Nat) (kary src : Nat) (markerRoot : Int)
    (relay : List Nat) (info : List KaryMessage) : List Nat × List KaryMessage :=
  (computeKaryChildren uIdx same.length kary).foldl
    (fun acc childIdx =>
      if childIdx < same.length then
        let v := same.getD childIdx 0
        if v ≠ src then (acc.1 ++ [v], acc.2.set v ⟨markerRoot, true⟩)
        else acc
      else acc)
    (relay, info)

/-- The K0 handling block of `Respond` (used on step 0 and, for relays, when
`srcBucket > 0`): flood `KB[u][0]` when it is within the threshold, otherwise
forward to the K-ary children of `u` inside the sorted same-hash group,
marking them with root `u`.  Returns the extended relay list and the updated
marker and group states. -/
def respondK0 (m : Mercator) (u src : Nat) (relay : List Nat) :
    List Nat × List KaryMessage × List (List Char × List Nat) :=
  if (bucketOf m u 0).length ≤ m.K0Threshold then
    (relay ++ (bucketOf m u 0).filter (fun v => v ≠ src), m.KaryMsgInfo, m.GeohashGroups)
  else
    let same := List.insertionSort (fun a b => a ≤ b)
      (groupsLookup m.GeohashGroups (geohashOf m u))
    let groups := groupsSet m.GeohashGroups (geohashOf m u) same
    let uIdx : Int := if u ∈ same then (same.indexOf u : Int) else -1
    if uIdx ≠ -1 then
      let r := karyForward same uIdx.toNat m.KaryFactor src (u : Int) relay m.KaryMsgInfo
      (r.1, r.2, groups)
    else (relay, m.KaryMsgInfo, groups)

/-- The outer-bucket forwarding loop: append `KB[u][b] \ {src}` for every
`b` in `[lo, lo + cnt)`. -/
def appendBuckets (m : Mercator) (u src lo cnt : Nat) (relay : List Nat) : List Nat :=
  (List.range' lo cnt).foldl
    (fun acc b => acc ++ (bucketOf m u b).filter (fun v => v ≠ src)) relay

/-- `Mercator.Respond(msg)`: the step-indexed forwarding state machine.
Returns the relay list together with the updated state (visited flag set,
K-ary markers possibly written, group lists possibly sorted in place). -/
def respond (m : Mercator) (msg : Message) : List Nat × Mercator :=
  let u := msg.Dst
  if visitedAt m u msg.Step then ([], m)
  else
    let m1 := { m with Visited := m.Visited.set u ((m.Visited.getD u []).set msg.Step true) }
    if msg.Step = 0 then
      let r := respondK0 m1 u msg.Src []
      let m2 := { m1 with KaryMsgInfo := r.2.1, GeohashGroups := r.2.2 }
      (appendBuckets m2 u msg.Src 1 ((m2.KBuckets.getD u []).length - 1) r.1, m2)
    else
      let srcBucket := getGeoBucketIndex (geohashOf m1 u) (geohashOf m1 msg.Src) m1.TotalBits
      if (karyInfoAt m1 u).IsKary then
        let karyRoot := (karyInfoAt m1 u).RootNode
        let same := List.insertionSort (fun a b => a ≤ b)
          (groupsLookup m1.GeohashGroups (m1.NodeGeohash.getD karyRoot.toNat []))
        let groups := groupsSet m1.GeohashGroups (m1.NodeGeohash.getD karyRoot.toNat []) same
        let uIdx : Int := if u ∈ same then (same.indexOf u : Int) else -1
        let r :=
          if uIdx ≠ -1 then
            karyForward same uIdx.toNat m1.KaryFactor msg.Src karyRoot [] m1.KaryMsgInfo
          else ([], m1.KaryMsgInfo)
        let m2 := { m1 with KaryMsgInfo := r.2, GeohashGroups := groups }
        (appendBuckets m2 u msg.Src 1 (srcBucket - 1) r.1, m2)
      else
        if srcBucket > 0 then
          let r := respondK0 m1 u msg.Src []
          let m2 := { m1 with KaryMsgInfo := r.2.1, GeohashGroups := r.2.2 }
          (appendBuckets m2 u msg.Src 1 (srcBucket - 1) r.1, m2)
        else
          (appendBuckets m1 u msg.Src 1 (srcBucket - 1) [], m1)

/-- `Mercator.ResetVisited`: clear every visited flag and reset every K-ary
marker to `(RootNode = -1, IsKary = false)`. -/
def resetVisited (m : Mercator) : Mercator :=
  { m with Visited := m.Visited.map (fun row => row.map (fun _ => false)),
           KaryMsgInfo := m.KaryMsgInfo.map (fun _ => ⟨-1, false⟩) }

/-- `Mercator.SetRoot(root)`: store the root and reset the broadcast state. -/
def setRoot (m : Mercator) (root : Nat) : Mercator :=
  resetVisited { m with TreeRoot := root }

/-! ### C5: the reset contract of SetRoot -/

/-- C5: immediately after `SetRoot`, every visited entry is false and every
K-ary marker equals `(RootNode = -1, IsKary = false)`. -/
theorem setRoot_clears_state (m : Mercator) (root : Nat) :
    (∀ row ∈ (setRoot m root).Visited, ∀ b ∈ row, b = false) ∧
    (∀ k ∈ (setRoot m root).KaryMsgInfo, k = (⟨-1, false⟩ : KaryMessage)) := by
  constructor
  · intro row hrow b hb
    simp only [setRoot, resetVisited, List.mem_map] at hrow
    obtain ⟨row0, _, rfl⟩ := hrow
    simp only [List.mem_map] at hb
    obtain ⟨_, _, hb2⟩ := hb
    exact hb2.symm
  · intro k hk
    simp only [setRoot, resetVisited, List.mem_map] at hk
    obtain ⟨_, _, hk2⟩ := hk
    exact hk2.symm

/-- A small concrete Mercator state used by witnesses: one dirty visited flag
and one dirty K-ary marker. -/
def c5state : Mercator :=
  { NodeGeohash := [['s'], ['s']]
    KBuckets := [[[1], []], [[0], []]]
    GeohashGroups := [(['s'], [0, 1])]
    TreeRoot := 0
    Visited := [[true, false], [false, true]]
    GeoPrec := 1
    BucketSize := 4
    K0Threshold := 9999
    KaryFactor := 3
    TotalBits := 5
    KaryMsgInfo := [⟨0, true⟩, ⟨-1, false⟩] }

/-- Witness for C5: the previously-set flag of node 0 at step 0 and the dirty
marker of node 0 are cleared by `SetRoot`. -/
theorem setRoot_clears_state_witness :
    (((setRoot c5state 1).Visited.getD 0 []).getD 0 true = false) ∧
    ((setRoot c5state 1).KaryMsgInfo.getD 0 ⟨0, true⟩ = (⟨-1, false⟩ : KaryMessage)) :=
  ⟨(setRoot_clears_state c5state 1).1 ((setRoot c5state 1).Visited.getD 0 []) (by decide)
      (((setRoot c5state 1).Visited.getD 0 []).getD 0 true) (by decide),
   (setRoot_clears_state c5state 1).2 ((setRoot c5state 1).KaryMsgInfo.getD 0 ⟨0, true⟩)
      (by decide)⟩

/-! ### C2 (amended): a relay from a same-hash source forwards nothing -/

/-- C2 (amended): in `Respond`, a relay message (`step > 0`) at an unvisited
`(dst, step)` slot whose receiver has no K-ary marker and whose source shares
the receiver Geohash (`srcBucket = 0`) produces an empty relay list: the K0
threshold/K-ary block is guarded by `srcBucket > 0` and is skipped, and the
outer-bucket loop over `[1, srcBucket)` is empty. -/
theorem respond_src_bucket_zero_empty (m : Mercator) (msg : Message)
    (hstep : msg.Step ≠ 0)
    (hvis : visitedAt m msg.Dst msg.Step = false)
    (hkary : (karyInfoAt m msg.Dst).IsKary = false)
    (hsrc : getGeoBucketIndex (geohashOf m msg.Dst) (geohashOf m msg.Src) m.TotalBits = 0) :
    (respond m msg).1 = [] := by
  have hgeo : geohashOf { m with
      Visited := m.Visited.set msg.Dst ((m.Visited.getD msg.Dst []).set msg.Step true) }
      = geohashOf m := rfl
  have hkar : karyInfoAt { m with
      Visited := m.Visited.set msg.Dst ((m.Visited.getD msg.Dst []).set msg.Step true) }
      = karyInfoAt m := rfl
  simp only [respond, hvis, Bool.false_eq_true, if_false, if_neg hstep,
    hgeo, hkar, hkary, hsrc]
  simp [appendBuckets, List.range']


/-- Witness for the amended C2 theorem: in the freshly reset two-node
same-hash state, a step-1 relay from the same-hash source forwards nothing. -/
theorem respond_src_bucket_zero_empty_witness :
    (respond (setRoot c5state 0) ⟨0, 0, 1, 1, 0, 0⟩).1 = [] :=
  respond_src_bucket_zero_empty (setRoot c5state 0) ⟨0, 0, 1, 1, 0, 0⟩
    (by decide) (by decide) (by decide) (by decide)

/-! ## Geohash encode and decode (GeohashEncoder) -/

/-- A latitude or longitude range. -/
structure GeoRange where
  Min : ℚ
  Max : ℚ

/-- `GeoRange.Mid`. -/
def geoRangeMid (gr : GeoRange) : ℚ :=
  (gr.Min + gr.Max) / 2

/-- The interleaving state shared by `Encode` and `Decode`: the current
latitude and longitude ranges and the parity flag (`isEven` selects the
longitude). -/
structure GeoState where
  latRange : GeoRange
  lonRange : GeoRange
  isEven : Bool

/-- Both `Encode` and `Decode` start from the full ranges with `isEven`. -/
def initGeoState : GeoState :=
  ⟨⟨-90, 90⟩, ⟨-180, 180⟩, true⟩

/-- One bit of `Encode`: on even steps compare the longitude against the
range midpoint (bit 1 keeps the upper half), on odd steps the latitude; the
parity flips. -/
def encodeStep (lat lon : ℚ) (s : GeoState) : Bool × GeoState :=
  if s.isEven then
    let mid := geoRangeMid s.lonRange
    if lon ≥ mid then (true, ⟨s.latRange, ⟨mid, s.lonRange.Max⟩, !s.isEven⟩)
    else (false, ⟨s.latRange, ⟨s.lonRange.Min, mid⟩, !s.isEven⟩)
  else
    let mid := geoRangeMid s.latRange
    if lat ≥ mid then (true, ⟨⟨mid, s.latRange.Max⟩, s.lonRange, !s.isEven⟩)
    else (false, ⟨⟨s.latRange.Min, mid⟩, s.lonRange, !s.isEven⟩)

/-- Run `k` bit steps of `Encode`, collecting the emitted bits. -/
def encodeBits (lat lon : ℚ) (s : GeoState) : Nat → List Bool × GeoState
  | 0 => ([], s)
  | k + 1 =>
      let r := encodeStep lat lon s
      let rest := encodeBits lat lon r.2 k
      (r.1 :: rest.1, rest.2)

/-- The index accumulated by `Encode` over a 5-bit group (`idx = idx*2 + bit`). -/
def bitsToIdx (bs : List Bool) : Nat :=
  bs.foldl (fun n b => n * 2 + (if b then 1 else 0)) 0

/-- The 5 bit steps producing one Base32 character of `Encode`. -/
def encodeChar5 (lat lon : ℚ) (s : GeoState) : Char × GeoState :=
  let r := encodeBits lat lon s 5
  (base32Charset.getD (bitsToIdx r.1) '0', r.2)

/-- The character loop of `Encode`. -/
def encodeChars (lat lon : ℚ) (s : GeoState) : Nat → List Char
  | 0 => []
  | p + 1 =>
      let r := encodeChar5 lat lon s
      r.1 :: encodeChars lat lon r.2 p

/-- `GeohashEncoder.Encode(lat, lon)` at the given precision: one character
per 5 interleaved halving steps (empty output for precision 0, as the source
returns the empty string for non-positive precision). -/
def encode (precision : Nat) (lat lon : ℚ) : List Char :=
  encodeChars lat lon initGeoState precision

/-- One bit of `Decode`: bit 1 raises the lower bound of the selected range
to the midpoint, bit 0 lowers the upper bound; the parity flips. -/
def decodeBit (s : GeoState) (bit : Bool) : GeoState :=
  if s.isEven then
    if bit then ⟨s.latRange, ⟨geoRangeMid s.lonRange, s.lonRange.Max⟩, !s.isEven⟩
    else ⟨s.latRange, ⟨s.lonRange.Min, geoRangeMid s.lonRange⟩, !s.isEven⟩
  else
    if bit then ⟨⟨geoRangeMid s.latRange, s.latRange.Max⟩, s.lonRange, !s.isEven⟩
    else ⟨⟨s.latRange.Min, geoRangeMid s.latRange⟩, s.lonRange, !s.isEven⟩

/-- One character of `Decode`: look up the Base32 index (characters outside
the alphabet are skipped, as in the source) and replay its 5 bits from the
most significant down. -/
def decodeChar (s : GeoState) (ch : Char) : GeoState :=
  if indexRune base32Charset ch = -1 then s
  else (bits5 (indexRune base32Charset ch).toNat).foldl decodeBit s

/-- The character loop of `Decode`. -/
def decodeList (s : GeoState) (geohash : List Char) : GeoState :=
  geohash.foldl decodeChar s

/-- `GeohashEncoder.Decode(geohash)`: the midpoint of the final cell, as the
pair `(lat, lon)`. -/
def decode (geohash : List Char) : ℚ × ℚ :=
  let s := decodeList initGeoState geohash
  (geoRangeMid s.latRange, geoRangeMid s.lonRange)

/-! ### C8: decode-encode roundtrip -/

/-- Non-degeneracy of the interleaving state. -/
def geoInv (s : GeoState) : Prop :=
  s.latRange.Min < s.latRange.Max ∧ s.lonRange.Min < s.lonRange.Max

/-- Range containment. -/
def subRange (r r' : GeoRange) : Prop :=
  r'.Min ≤ r.Min ∧ r.Max ≤ r'.Max

/-- Pointwise containment of the two ranges of a state. -/
def subState (s s' : GeoState) : Prop :=
  subRange s.latRange s'.latRange ∧ subRange s.lonRange s'.lonRange

lemma subRange_refl (r : GeoRange) : subRange r r := ⟨le_refl _, le_refl _⟩

lemma subRange_trans {a b c : GeoRange} (h1 : subRange a b) (h2 : subRange b c) :
    subRange a c :=
  ⟨le_trans h2.1 h1.1, le_trans h1.2 h2.2⟩

lemma subState_refl (s : GeoState) : subState s s := ⟨subRange_refl _, subRange_refl _⟩

lemma subState_trans {a b c : GeoState} (h1 : subState a b) (h2 : subState b c) :
    subState a c :=
  ⟨subRange_trans h1.1 h2.1, subRange_trans h1.2 h2.2⟩

lemma mid_between {r : GeoRange} (h : r.Min < r.Max) :
    r.Min < geoRangeMid r ∧ geoRangeMid r < r.Max := by
  unfold geoRangeMid
  constructor <;> linarith

lemma decodeBit_inv {s : GeoState} (b : Bool) (h : geoInv s) : geoInv (decodeBit s b) := by
  obtain ⟨hlat, hlon⟩ := h
  have hmlat := mid_between hlat
  have hmlon := mid_between hlon
  unfold decodeBit
  cases hse : s.isEven <;> cases b <;>
    simp only [Bool.false_eq_true, reduceIte] <;>
    exact ⟨by dsimp only; linarith, by dsimp only; linarith⟩

lemma decodeBit_sub {s : GeoState} (b : Bool) (h : geoInv s) :
    subState (decodeBit s b) s := by
  obtain ⟨hlat, hlon⟩ := h
  have hmlat := mid_between hlat
  have hmlon := mid_between hlon
  unfold decodeBit
  cases hse : s.isEven <;> cases b <;>
    simp only [Bool.false_eq_true, reduceIte] <;>
    exact ⟨⟨by dsimp only; linarith, by dsimp only; linarith⟩,
           ⟨by dsimp only; linarith, by dsimp only; linarith⟩⟩

lemma decodeBitsFold_inv_sub : ∀ (bs : List Bool) (s : GeoState), geoInv s →
    geoInv (bs.foldl decodeBit s) ∧ subState (bs.foldl decodeBit s) s
  | [], s, h => ⟨h, subState_refl s⟩
  | b :: bs, s, h => by
      have h1 := decodeBit_inv b h
      have h2 := decodeBit_sub b h
      obtain ⟨hi, hs⟩ := decodeBitsFold_inv_sub bs (decodeBit s b) h1
      exact ⟨hi, subState_trans hs h2⟩

lemma decodeChar_inv_sub (s : GeoState) (c : Char) (h : geoInv s) :
    geoInv (decodeChar s c) ∧ subState (decodeChar s c) s := by
  unfold decodeChar
  split
  · exact ⟨h, subState_refl s⟩
  · exact decodeBitsFold_inv_sub _ s h


lemma decodeList_inv_sub : ∀ (hs : List Char) (s : GeoState), geoInv s →
    geoInv (decodeList s hs) ∧ subState (decodeList s hs) s
  | [], s, h => ⟨h, subState_refl s⟩
  | c :: cs, s, h => by
      obtain ⟨h1, h2⟩ := decodeChar_inv_sub s c h
      obtain ⟨hi, hs2⟩ := decodeList_inv_sub cs (decodeChar s c) h1
      exact ⟨hi, subState_trans hs2 h2⟩

/-- The key step: if the final cell `f` lies inside the half selected by bit
`b`, then the encoding comparison at the midpoint of `f` reproduces `b` and
moves to the same state as the decoding step. -/
lemma encodeStep_of_final (s f : GeoState) (b : Bool)
    (hinv : geoInv s) (hfinv : geoInv f) (hsub : subState f (decodeBit s b)) :
    encodeStep (geoRangeMid f.latRange) (geoRangeMid f.lonRange) s = (b, decodeBit s b) := by
  obtain ⟨hflat, hflon⟩ := hfinv
  unfold encodeStep decodeBit at *
  cases hse : s.isEven <;> rw [hse] at hsub <;> cases b <;>
      simp only [Bool.false_eq_true, reduceIte] at hsub ⊢
  · have h2 : f.latRange.Max ≤ geoRangeMid s.latRange := hsub.1.2
    have hneg : ¬ geoRangeMid f.latRange ≥ geoRangeMid s.latRange := by
      unfold geoRangeMid at *
      push_neg
      linarith
    rw [if_neg hneg]
  · have h1 : geoRangeMid s.latRange ≤ f.latRange.Min := hsub.1.1
    have hpos : geoRangeMid f.latRange ≥ geoRangeMid s.latRange := by
      unfold geoRangeMid at *
      linarith
    rw [if_pos hpos]
  · have h2 : f.lonRange.Max ≤ geoRangeMid s.lonRange := hsub.2.2
    have hneg : ¬ geoRangeMid f.lonRange ≥ geoRangeMid s.lonRange := by
      unfold geoRangeMid at *
      push_neg
      linarith
    rw [if_neg hneg]
  · have h1 : geoRangeMid s.lonRange ≤ f.lonRange.Min := hsub.2.1
    have hpos : geoRangeMid f.lonRange ≥ geoRangeMid s.lonRange := by
      unfold geoRangeMid at *
      linarith
    rw [if_pos hpos]

/-- Chaining `encodeStep_of_final` over a bit list. -/
lemma encodeBits_of_final : ∀ (bs : List Bool) (s f : GeoState), geoInv s → geoInv f →
    subState f (bs.foldl decodeBit s) →
    encodeBits (geoRangeMid f.latRange) (geoRangeMid f.lonRange) s bs.length
      = (bs, bs.foldl decodeBit s)
  | [], s, f, _, _, _ => rfl
  | b :: bs, s, f, hinv, hfinv, hsub => by
      have hsub1 : subState f (decodeBit s b) := by
        have hdi := decodeBit_inv b hinv
        have hrest := (decodeBitsFold_inv_sub bs (decodeBit s b) hdi).2
        exact subState_trans hsub hrest
      have hstep := encodeStep_of_final s f b hinv hfinv hsub1
      have hih := encodeBits_of_final bs (decodeBit s b) f (decodeBit_inv b hinv) hfinv hsub
      show encodeBits _ _ s (bs.length + 1) = _
      simp only [encodeBits, hstep, hih, List.foldl_cons]

lemma bitsToIdx_bits5 : ∀ i < 32, bitsToIdx (bits5 i) = i := by decide

lemma bits5_length (i : Nat) : (bits5 i).length = 5 := rfl

/-- One character: if the final cell lies inside the cell after decoding
character `c` from state `s`, encoding from `s` at the midpoint of the final
cell reproduces `c`. -/
lemma encodeChar5_of_final (s f : GeoState) (c : Char) (hc : c ∈ base32Charset)
    (hinv : geoInv s) (hfinv : geoInv f) (hsub : subState f (decodeChar s c)) :
    encodeChar5 (geoRangeMid f.latRange) (geoRangeMid f.lonRange) s = (c, decodeChar s c) := by
  have hidx : base32Charset.indexOf c < 32 := List.indexOf_lt_length.mpr hc
  have hnn : (0 : Int) ≤ (base32Charset.indexOf c : Int) := Int.natCast_nonneg _
  have hne : ((base32Charset.indexOf c : Int)) ≠ -1 := by omega
  have hdc : decodeChar s c = (bits5 (base32Charset.indexOf c)).foldl decodeBit s := by
    unfold decodeChar
    rw [indexRune, if_pos hc, if_neg hne]
    simp only [Int.toNat_natCast]
  rw [hdc] at hsub ⊢
  have hbits := encodeBits_of_final (bits5 (base32Charset.indexOf c)) s f hinv hfinv hsub
  rw [bits5_length] at hbits
  unfold encodeChar5
  rw [hbits]
  simp only [bitsToIdx_bits5 _ hidx]
  congr 1
  have hlen : base32Charset.indexOf c < base32Charset.length := hidx
  simp [List.getD_eq_getElem?_getD, List.getElem?_eq_getElem hlen, List.getElem_indexOf hlen]

/-- The character loop: encoding at the midpoints of the fully decoded state
reproduces the whole hash. -/
lemma encodeChars_of_final : ∀ (hs : List Char) (s : GeoState), geoInv s →
    (∀ c ∈ hs, c ∈ base32Charset) →
    encodeChars (geoRangeMid (decodeList s hs).latRange)
      (geoRangeMid (decodeList s hs).lonRange) s hs.length = hs
  | [], _, _, _ => rfl
  | c :: cs, s, hinv, hval => by
      have hc : c ∈ base32Charset := hval c (by simp)
      have hinv1 : geoInv (decodeChar s c) := (decodeChar_inv_sub s c hinv).1
      have hF : decodeList s (c :: cs) = decodeList (decodeChar s c) cs := rfl
      have hfinv : geoInv (decodeList s (c :: cs)) := by
        rw [hF]; exact (decodeList_inv_sub cs (decodeChar s c) hinv1).1
      have hsub : subState (decodeList s (c :: cs)) (decodeChar s c) := by
        rw [hF]; exact (decodeList_inv_sub cs (decodeChar s c) hinv1).2
      have hchar := encodeChar5_of_final s (decodeList s (c :: cs)) c hc hinv hfinv hsub
      have hih := encodeChars_of_final cs (decodeChar s c) hinv1
        (fun x hx => hval x (by simp [hx]))
      show encodeChars _ _ s (cs.length + 1) = c :: cs
      simp only [encodeChars, hchar]
      rw [hF] at hchar ⊢ <;> try rfl
      rw [hih]

/-- C8: for every Geohash string over the Base32 alphabet, encoding the
decoded cell midpoint at the same precision reproduces the string. -/
theorem encode_decode_roundtrip (h : List Char) (hval : ∀ c ∈ h, c ∈ base32Charset) :
    encode h.length (decode h).1 (decode h).2 = h := by
  have hinv : geoInv initGeoState := by
    constructor <;> norm_num [initGeoState]
  exact encodeChars_of_final h initGeoState hinv hval

/-- Witness for C8 at the hash s0 (the cell of the origin at precision 2). -/
theorem encode_decode_roundtrip_witness :
    encode (['s', '0'] : List Char).length (decode ['s', '0']).1 (decode ['s', '0']).2
      = ['s', '0'] :=
  encode_decode_roundtrip ['s', '0'] (by decide)

/-! ## K1..Kn bucket filling (FillOtherKBuckets) -/

/-- `DedupIntsStable`: stable deduplication preserving first occurrences
(the Go implementation walks the list with a seen-set). -/
def dedupStableAux (seen : List Nat) : List Nat → List Nat
  | [] => []
  | x :: xs => if x ∈ seen then dedupStableAux seen xs
               else x :: dedupStableAux (seen ++ [x]) xs

/-- `DedupIntsStable(xs)`. -/
def dedupIntsStable (xs : List Nat) : List Nat :=
  dedupStableAux [] xs

/-- One comparison-and-swap of the candidate sort (the C++-faithful double
loop swaps positions `a` and `b` when `cand[a].dist > cand[b].dist`). -/
def swapIfGt (l : List (ℚ × Nat)) (a b : Nat) : List (ℚ × Nat) :=
  if (l.getD a (0, 0)).1 > (l.getD b (0, 0)).1 then
    (l.set a (l.getD b (0, 0))).set b (l.getD a (0, 0))
  else l

/-- The inner pass of the candidate sort at outer index `a`. -/
def innerSortPass (l : List (ℚ × Nat)) (a : Nat) : List (ℚ × Nat) :=
  (List.range' (a + 1) (l.length - (a + 1))).foldl (fun acc b => swapIfGt acc a b) l

/-- The full exchange sort over candidates by ascending distance, exactly as
in the source (including its behaviour on ties). -/
def exchangeSort (l : List (ℚ × Nat)) : List (ℚ × Nat) :=
  (List.range (l.length - 1)).foldl innerSortPass l

/-- One inner-scan step of `FillOtherKBuckets` for node `i` at peer `j`
(state: buckets of node `i` paired with the candidate list): skip `j = i`,
skip identical binaries (`diffPos = -1`); otherwise, when the real bucket
`totalBits - diffPos` lies in `[1, totalBits]` and is below capacity, append
`j` to the real bucket and record the candidate `(dist i j, j)`. -/
def fillScanStep (bins : List (List Bool)) (dist : Nat → Nat → ℚ)
    (bucketSize totalBits i : Nat) (st : List (List Nat) × List (ℚ × Nat)) (j : Nat) :
    List (List Nat) × List (ℚ × Nat) :=
  if i = j then st
  else
    if firstDiffBitPos (bins.getD i []) (bins.getD j []) = -1 then st
    else
      let calcBucketIdx : Int :=
        (totalBits : Int) - firstDiffBitPos (bins.getD i []) (bins.getD j [])
      if 1 ≤ calcBucketIdx ∧ calcBucketIdx ≤ (totalBits : Int) ∧
          (st.1.getD calcBucketIdx.toNat []).length < bucketSize then
        (st.1.set calcBucketIdx.toNat (st.1.getD calcBucketIdx.toNat [] ++ [j]),
         st.2 ++ [(dist i j, j)])
      else st

/-- One outer-bucket iteration of `FillOtherKBuckets` for node `i`: skip a
full bucket `bucketIdx`; otherwise scan all peers, sort the collected
candidates by ascending distance, and append the top
`min(bucketSize, |cands|)` ids to bucket `bucketIdx` with no deduplication
and no capacity check. -/
def fillProcessBucket (bins : List (List Bool)) (dist : Nat → Nat → ℚ)
    (bucketSize totalBits i : Nat) (kbi : List (List Nat)) (bucketIdx : Nat) :
    List (List Nat) :=
  if bucketSize ≤ (kbi.getD bucketIdx []).length then kbi
  else
    let r := (List.range bins.length).foldl
      (fillScanStep bins dist bucketSize totalBits i) (kbi, [])
    let sorted := exchangeSort r.2
    let limit := min bucketSize sorted.length
    r.1.set bucketIdx (r.1.getD bucketIdx [] ++ (sorted.take limit).map Prod.snd)

/-- The per-node body of `FillOtherKBuckets`: the outer-bucket loop over
`1 .. totalBits` followed by the in-loop stable dedup pass over buckets
`0 .. totalBits` of node `i`. -/
def fillNodeBuckets (bins : List (List Bool)) (dist : Nat → Nat → ℚ)
    (bucketSize totalBits i : Nat) (kbi : List (List Nat)) : List (List Nat) :=
  let afterB := (List.range' 1 totalBits).foldl
    (fillProcessBucket bins dist bucketSize totalBits i) kbi
  (List.range (totalBits + 1)).foldl
    (fun acc b => acc.set b (dedupIntsStable (acc.getD b []))) afterB

/-- `FillOtherKBuckets`: the node loop.  The loop body reads and writes only
the buckets of node `i` (peers are consulted through `bins` and `dist`
alone), so the sequential Go loop is the fold below.  The connection counter
returned by the Go function is not modelled. -/
def fillOtherKBuckets (kBuckets : List (List (List Nat))) (bins : List (List Bool))
    (dist : Nat → Nat → ℚ) (bucketSize totalBits : Nat) : List (List (List Nat)) :=
  (List.range bins.length).foldl
    (fun kb i => kb.set i (fillNodeBuckets bins dist bucketSize totalBits i (kb.getD i [])))
    kBuckets

/-! ### C3: the claim-side description of the fill -/

/-- The scan step as the claim states it: for `j ≠ i`, when
`realBucket = TotalBits - first_diff_bit_pos(bin(i), bin(j))` lies in
`[1, TotalBits]` and bucket `realBucket` of `i` is not yet at capacity,
append `j` to it and record `(distance(i,j), j)` as a candidate.  No
separate test for identical binaries appears: for them
`first_diff_bit_pos = -1` puts `realBucket = TotalBits + 1` out of range. -/
def fillScanStepSpec (bins : List (List Bool)) (dist : Nat → Nat → ℚ)
    (bucketSize totalBits i : Nat) (st : List (List Nat) × List (ℚ × Nat)) (j : Nat) :
    List (List Nat) × List (ℚ × Nat) :=
  if i = j then st
  else
    let realBucket : Int :=
      (totalBits : Int) - firstDiffBitPos (bins.getD i []) (bins.getD j [])
    if 1 ≤ realBucket ∧ realBucket ≤ (totalBits : Int) ∧
        (st.1.getD realBucket.toNat []).length < bucketSize then
      (st.1.set realBucket.toNat (st.1.getD realBucket.toNat [] ++ [j]),
       st.2 ++ [(dist i j, j)])
    else st

/-- The per-bucket step as the claim states it: skip `B` when bucket `B`
already holds at least `K` entries; otherwise scan every `j ≠ i` and then
append the `min(K, |cands|)` candidates of smallest distance (by the
source sort) to bucket `B` itself, without deduplication or capacity
check. -/
def fillProcessBucketSpec (bins : List (List Bool)) (dist : Nat → Nat → ℚ)
    (bucketSize totalBits i : Nat) (kbi : List (List Nat)) (bucketIdx : Nat) :
    List (List Nat) :=
  if bucketSize ≤ (kbi.getD bucketIdx []).length then kbi
  else
    let r := (List.range bins.length).foldl
      (fillScanStepSpec bins dist bucketSize totalBits i) (kbi, [])
    let sorted := exchangeSort r.2
    let limit := min bucketSize sorted.length
    r.1.set bucketIdx (r.1.getD bucketIdx [] ++ (sorted.take limit).map Prod.snd)

/-- Per node, as the claim states it: process every outer bucket
`B ∈ [1, TotalBits]`, then stably deduplicate every bucket of node `i`
(preserving first occurrences), with no capacity truncation. -/
def fillNodeBucketsSpec (bins : List (List Bool)) (dist : Nat → Nat → ℚ)
    (bucketSize totalBits i : Nat) (kbi : List (List Nat)) : List (List Nat) :=
  (((List.range' 1 totalBits).foldl
    (fillProcessBucketSpec bins dist bucketSize totalBits i) kbi).map dedupIntsStable)

/-- The claim-side fill: each node processed independently. -/
def fillOtherKBucketsSpec (kBuckets : List (List (List Nat))) (bins : List (List Bool))
    (dist : Nat → Nat → ℚ) (bucketSize totalBits : Nat) : List (List (List Nat)) :=
  (List.range bins.length).foldl
    (fun kb i => kb.set i (fillNodeBucketsSpec bins dist bucketSize totalBits i (kb.getD i [])))
    kBuckets

lemma fillScanStep_eq_spec (bins : List (List Bool)) (dist : Nat → Nat → ℚ)
    (bucketSize totalBits i : Nat) (st : List (List Nat) × List (ℚ × Nat)) (j : Nat) :
    fillScanStep bins dist bucketSize totalBits i st j
      = fillScanStepSpec bins dist bucketSize totalBits i st j := by
  unfold fillScanStep fillScanStepSpec
  by_cases hij : i = j
  · rw [if_pos hij, if_pos hij]
  · rw [if_neg hij, if_neg hij]
    by_cases hd : firstDiffBitPos (bins.getD i []) (bins.getD j []) = -1
    · rw [if_pos hd, hd]
      rw [if_neg]
      intro hcond
      omega
    · rw [if_neg hd]

lemma fillScanStep_fst_length (bins : List (List Bool)) (dist : Nat → Nat → ℚ)
    (bucketSize totalBits i : Nat) (st : List (List Nat) × List (ℚ × Nat)) (j : Nat) :
    (fillScanStep bins dist bucketSize totalBits i st j).1.length = st.1.length := by
  unfold fillScanStep
  dsimp only
  split
  · rfl
  split
  · rfl
  split
  · simp
  · rfl

lemma scanFold_fst_length (bins : List (List Bool)) (dist : Nat → Nat → ℚ)
    (bucketSize totalBits i : Nat) :
    ∀ (js : List Nat) (st : List (List Nat) × List (ℚ × Nat)),
    (js.foldl (fillScanStep bins dist bucketSize totalBits i) st).1.length = st.1.length
  | [], _ => rfl
  | j :: js, st => by
      rw [List.foldl_cons, scanFold_fst_length bins dist bucketSize totalBits i js _,
        fillScanStep_fst_length]

lemma fillProcessBucket_length (bins : List (List Bool)) (dist : Nat → Nat → ℚ)
    (bucketSize totalBits i : Nat) (kbi : List (List Nat)) (bucketIdx : Nat) :
    (fillProcessBucket bins dist bucketSize totalBits i kbi bucketIdx).length
      = kbi.length := by
  unfold fillProcessBucket
  split_ifs
  · rfl
  · rw [List.length_set, scanFold_fst_length]

lemma bucketFold_length (bins : List (List Bool)) (dist : Nat → Nat → ℚ)
    (bucketSize totalBits i : Nat) :
    ∀ (bs : List Nat) (kbi : List (List Nat)),
    (bs.foldl (fillProcessBucket bins dist bucketSize totalBits i) kbi).length = kbi.length
  | [], _ => rfl
  | b :: bs, kbi => by
      rw [List.foldl_cons, bucketFold_length bins dist bucketSize totalBits i bs _,
        fillProcessBucket_length]

lemma fillProcessBucket_eq_spec (bins : List (List Bool)) (dist : Nat → Nat → ℚ)
    (bucketSize totalBits i : Nat) (kbi : List (List Nat)) (bucketIdx : Nat) :
    fillProcessBucket bins dist bucketSize totalBits i kbi bucketIdx
      = fillProcessBucketSpec bins dist bucketSize totalBits i kbi bucketIdx := by
  unfold fillProcessBucket fillProcessBucketSpec
  have h : fillScanStep bins dist bucketSize totalBits i
      = fillScanStepSpec bins dist bucketSize totalBits i :=
    funext fun st => funext fun j => fillScanStep_eq_spec bins dist bucketSize totalBits i st j
  rw [h]

lemma set_take_succ_of_lt {α : Type} (l : List α) (n : Nat) (x : α) (h : n < l.length) :
    (l.set n x).take (n + 1) = l.take n ++ [x] := by
  induction l generalizing n with
  | nil => simp at h
  | cons a as ih =>
    cases n with
    | zero => simp
    | succ n =>
      have hn : n < as.length := by simpa using h
      simp only [List.set_cons_succ, List.take_succ_cons, List.cons_append]
      rw [ih n hn]

lemma setmap_aux {α : Type} (f : α → α) (d : α) :
    ∀ (m n : Nat) (l : List α), m = l.length - n →
    (List.range' n m).foldl (fun acc b => acc.set b (f (acc.getD b d))) l
      = l.take n ++ (l.drop n).map f := by
  intro m
  induction m with
  | zero =>
    intro n l hm
    have hn : l.length ≤ n := by omega
    simp [List.take_of_length_le hn, List.drop_eq_nil_of_le hn]
  | succ m ih =>
    intro n l hm
    have hn : n < l.length := by omega
    rw [List.range'_succ, List.foldl_cons]
    have hget : l.getD n d = l[n] := by
      simp [List.getD_eq_getElem?_getD, List.getElem?_eq_getElem hn]
    set l1 := l.set n (f (l.getD n d)) with hl1
    have hlen1 : l1.length = l.length := by rw [hl1, List.length_set]
    have hm1 : m = l1.length - (n + 1) := by omega
    rw [ih (n + 1) l1 hm1]
    have htake : l1.take (n + 1) = l.take n ++ [f l[n]] := by
      rw [hl1, hget]; exact set_take_succ_of_lt l n _ hn
    have hdrop : l1.drop (n + 1) = l.drop (n + 1) := by
      rw [hl1, List.drop_set]
      rw [if_pos (by omega)]
    have hdn : l.drop n = l[n] :: l.drop (n + 1) := List.drop_eq_getElem_cons hn
    rw [htake, hdrop, hdn]
    simp
    rw [List.drop_eq_getElem_cons (n := n) (l := l.map f) (by simpa using hn)]
    simp

lemma foldl_set_range_map {α : Type} (f : α → α) (d : α) (l : List α) :
    (List.range l.length).foldl (fun acc b => acc.set b (f (acc.getD b d))) l = l.map f := by
  have h := setmap_aux f d l.length 0 l (by omega)
  rw [List.range_eq_range']
  simpa using h

lemma fillNodeBuckets_length (bins : List (List Bool)) (dist : Nat → Nat → ℚ)
    (bucketSize totalBits i : Nat) (kbi : List (List Nat)) :
    (fillNodeBuckets bins dist bucketSize totalBits i kbi).length = kbi.length := by
  unfold fillNodeBuckets
  have hsets : ∀ (bs : List Nat) (l : List (List Nat)),
      (bs.foldl (fun acc b => acc.set b (dedupIntsStable (acc.getD b []))) l).length
        = l.length := by
    intro bs
    induction bs with
    | nil => intro l; rfl
    | cons b bs ih2 =>
        intro l
        rw [List.foldl_cons, ih2, List.length_set]
  rw [hsets, bucketFold_length]

lemma fillNodeBuckets_eq_spec (bins : List (List Bool)) (dist : Nat → Nat → ℚ)
    (bucketSize totalBits i : Nat) (kbi : List (List Nat))
    (hlen : kbi.length = totalBits + 1) :
    fillNodeBuckets bins dist bucketSize totalBits i kbi
      = fillNodeBucketsSpec bins dist bucketSize totalBits i kbi := by
  unfold fillNodeBuckets fillNodeBucketsSpec
  have h : fillProcessBucket bins dist bucketSize totalBits i
      = fillProcessBucketSpec bins dist bucketSize totalBits i :=
    funext fun k => funext fun b => fillProcessBucket_eq_spec bins dist bucketSize totalBits i k b
  rw [← h]
  have hlenB : ((List.range' 1 totalBits).foldl
      (fillProcessBucket bins dist bucketSize totalBits i) kbi).length = totalBits + 1 := by
    rw [bucketFold_length, hlen]
  rw [← hlenB, foldl_set_range_map]

/-- C3: `FillOtherKBuckets` realises exactly the claimed K1..Kn procedure:
per node, skip full outer buckets; per scanned peer, deposit into the real
bucket (when in `[1, TotalBits]` and below capacity `K`) and record a
candidate; double-write the `min(K, |cands|)` nearest candidates into the
outer bucket with no dedup or capacity check; and after all outer buckets,
stably deduplicate every bucket of the node without truncation. -/
theorem fillOtherKBuckets_matches_claim (kBuckets : List (List (List Nat)))
    (bins : List (List Bool)) (dist : Nat → Nat → ℚ) (bucketSize totalBits : Nat)
    (hlen : ∀ kbi ∈ kBuckets, kbi.length = totalBits + 1) :
    fillOtherKBuckets kBuckets bins dist bucketSize totalBits
      = fillOtherKBucketsSpec kBuckets bins dist bucketSize totalBits := by
  unfold fillOtherKBuckets fillOtherKBucketsSpec
  have main : ∀ (js : List Nat) (kb : List (List (List Nat))),
      (∀ kbi ∈ kb, kbi.length = totalBits + 1) →
      js.foldl (fun kb i =>
          kb.set i (fillNodeBuckets bins dist bucketSize totalBits i (kb.getD i []))) kb
        = js.foldl (fun kb i =>
          kb.set i (fillNodeBucketsSpec bins dist bucketSize totalBits i (kb.getD i []))) kb := by
    intro js
    induction js with
    | nil => intro kb _; rfl
    | cons j js ih =>
      intro kb hkb
      rw [List.foldl_cons, List.foldl_cons]
      by_cases hj : j < kb.length
      · have hgd : kb.getD j [] = kb[j] := by
          simp [List.getD_eq_getElem?_getD, List.getElem?_eq_getElem hj]
        have hmem : kb.getD j [] ∈ kb := by rw [hgd]; exact List.getElem_mem hj
        have hlenj : (kb.getD j []).length = totalBits + 1 := hkb _ hmem
        rw [fillNodeBuckets_eq_spec bins dist bucketSize totalBits j _ hlenj]
        apply ih
        intro kbi hkbi
        rcases List.mem_or_eq_of_mem_set hkbi with hmem2 | heq
        · exact hkb _ hmem2
        · rw [heq, ← fillNodeBuckets_eq_spec bins dist bucketSize totalBits j _ hlenj,
              fillNodeBuckets_length, hlenj]
      · rw [List.set_eq_of_length_le (by omega), List.set_eq_of_length_le (by omega)]
        exact ih kb hkb
  exact main (List.range bins.length) kBuckets hlen

/-- Witness for C3 on a two-node instance at one character of precision. -/
theorem fillOtherKBuckets_matches_claim_witness :
    fillOtherKBuckets
        [List.replicate 6 [], List.replicate 6 []]
        [toBinary ['0'], toBinary ['1']] (fun _ _ => 0) 2 5
      = fillOtherKBucketsSpec
        [List.replicate 6 [], List.replicate 6 []]
        [toBinary ['0'], toBinary ['1']] (fun _ _ => 0) 2 5 :=
  fillOtherKBuckets_matches_claim
    [List.replicate 6 [], List.replicate 6 []]
    [toBinary ['0'], toBinary ['1']] (fun _ _ => 0) 2 5 (by decide)

/-! ## C2: the concrete same-hash counterexample -/

/-- A three-node Mercator state as `NewMercator(3, ...)` builds it when all
three nodes share the Geohash "s0" (the `runMercator` parameters: GeoPrec 2,
BucketSize 6, K0Threshold 9999, KaryFactor 3): `KB[u][0]` holds the two peers
of `u`, every outer bucket is empty, and the group map has the single entry
("s0", [0, 1, 2]). -/
def c2state : Mercator :=
  { NodeGeohash := [['s', '0'], ['s', '0'], ['s', '0']]
    KBuckets := [[1, 2] :: List.replicate 10 [],
                 [0, 2] :: List.replicate 10 [],
                 [0, 1] :: List.replicate 10 []]
    GeohashGroups := [(['s', '0'], [0, 1, 2])]
    TreeRoot := 0
    Visited := List.replicate 3 (List.replicate 41 false)
    GeoPrec := 2
    BucketSize := 6
    K0Threshold := 9999
    KaryFactor := 3
    TotalBits := 10
    KaryMsgInfo := List.replicate 3 (⟨-1, false⟩ : KaryMessage) }

/-- Counterexample to C2 as stated: node 1 receives a step-1 relay from the
same-hash source 0.  Since `|KB[1][0]| = 2 ≤ K0Threshold`, the claimed relay
list is `KB[1][0] \ \x7b0\x7d = [2]`, yet `Respond` returns the empty list: the K0
threshold/K-ary block is guarded by `srcBucket > 0` and never runs when
`srcBucket = 0`. -/
theorem respond_src_bucket_zero_counterexample :
    (respond c2state ⟨0, 0, 1, 1, 0, 0⟩).1 = [] ∧
    (bucketOf c2state 1 0).length ≤ c2state.K0Threshold ∧
    (bucketOf c2state 1 0).filter (fun v => v ≠ 0) = [2] := by
  refine ⟨?_, by decide, by decide⟩
  decide

/-! ## C1: the propagation delay of the shipped Mercator run -/

/-- `CalculateTransmissionDelay(dataSize, bandwidth) = dataSize*8/bandwidth*1000`
(utils.go). -/
def calculateTransmissionDelay (dataSize bandwidth : ℚ) : ℚ :=
  dataSize * 8 / bandwidth * 1000

/-- `CalculatePropagationDelay(u, v, coords, bandwidth, dataSize)` (utils.go):
three times the haversine distance plus the transmission delay.  The haversine
distance between the coordinates of `u` and `v` is abstracted as `dist`. -/
def calculatePropagationDelay (dist : Nat → Nat → ℚ) (u v : Nat)
    (bandwidth dataSize : ℚ) : ℚ :=
  dist u v * 3 + calculateTransmissionDelay dataSize bandwidth

/-- The propagation delay the shipped Mercator run applies to a hop of any
step.  `runMercator` (part_000, lines 119-124) calls `handlware.Simulation`
(its `MercatorSimulation` call is commented out, and no function of that name
exists in the sources), and the relay loop of `SingleRootSimulation`
(clustering.go) computes `CalculatePropagationDelay(u, v, ...)` without ever
inspecting `msg.Step`; the step parameter is therefore unused, exactly as in
the code. -/
def simHopDelay (dist : Nat → Nat → ℚ) (u v : Nat) (bandwidth dataSize : ℚ)
    (step : Nat) : ℚ :=
  calculatePropagationDelay dist u v bandwidth dataSize

/-- C1: the delay the shipped Mercator run computes carries coefficient 3 at
every step; in particular on step 0 it differs from the claimed coefficient-1
variant whenever the haversine distance is nonzero.  The claim (and
DELAY_FIX_REPORT.md) describe a `MercatorSimulation` with a step-0
coefficient-1 formula, but that function does not exist and `runMercator`
invokes the uniform-coefficient `Simulation` instead. -/
theorem mercator_step0_coefficient_three (dist : Nat → Nat → ℚ) (u v : Nat)
    (bandwidth dataSize : ℚ) (step : Nat) :
    simHopDelay dist u v bandwidth dataSize step
      = dist u v * 3 + calculateTransmissionDelay dataSize bandwidth ∧
    (dist u v ≠ 0 →
      simHopDelay dist u v bandwidth dataSize 0
        ≠ dist u v * 1 + calculateTransmissionDelay dataSize bandwidth) := by
  constructor
  · rfl
  · intro hd h
    apply hd
    have h3 : dist u v * 3 + calculateTransmissionDelay dataSize bandwidth
        = dist u v * 1 + calculateTransmissionDelay dataSize bandwidth := h
    linarith

/-- Witness for C1 at distance 1 and transmission delay 0: the shipped formula
yields 3, not 1. -/
theorem mercator_step0_coefficient_three_witness :
    simHopDelay (fun _ _ => 1) 0 1 1 0 0
      = (fun _ _ => (1 : ℚ)) 0 1 * 3 + calculateTransmissionDelay 0 1 ∧
    simHopDelay (fun _ _ => 1) 0 1 1 0 0
      ≠ (fun _ _ => (1 : ℚ)) 0 1 * 1 + calculateTransmissionDelay 0 1 :=
  ⟨(mercator_step0_coefficient_three (fun _ _ => 1) 0 1 1 0 0).1,
   (mercator_step0_coefficient_three (fun _ _ => 1) 0 1 1 0 0).2 one_ne_zero⟩

/-! ## The single-root broadcast simulator (clustering.go, SingleRootSimulation) -/

/-- `MaxDepth = 40` (part_007). -/
def MaxDepth : Nat := 40

/-- The sentinel `inf = 1e8` of `SingleRootSimulation`. -/
def inf : ℚ := 10 ^ 8

/-- The event-driven simulation state of one repetition.  `successChildren`
is write-only bookkeeping copied into the result at the end of the run and is
not modelled; `procCount` indexes the stream of processing-delay draws that
models the calls to `CalculateProcessingDelay`. -/
structure SimState where
  recvFlag : List Bool
  recvTime : List ℚ
  recvDist : List ℚ
  recvParent : List Int
  depth : List Nat
  recvList : List Nat
  dupMsg : Nat
  queue : List Message
  merc : Mercator
  procCount : Nat

/-- The state at the start of a repetition: clean arrays and the root
self-message `(root, root, root, 0, 0, 0)` in the queue. -/
def initSimState (n root : Nat) (merc : Mercator) (procCount : Nat) : SimState :=
  { recvFlag := List.replicate n false
    recvTime := List.replicate n 0
    recvDist := List.replicate n 0
    recvParent := List.replicate n (-1)
    depth := List.replicate n 0
    recvList := []
    dupMsg := 0
    queue := [⟨root, root, root, 0, 0, 0⟩]
    merc := merc
    procCount := procCount }

/-- Pop the pending message with the smallest `RecvTime`: the Go
`PriorityQueue` (queue.go) is a binary min-heap ordered by `RecvTime`; the
internal order of the remaining messages is not observable through `Pop`. -/
def popMin : List Message → Option (Message × List Message)
  | [] => none
  | m :: rest =>
      some (rest.foldl
        (fun acc x =>
          if x.RecvTime < acc.1.RecvTime then (x, acc.1 :: acc.2)
          else (acc.1, x :: acc.2))
        (m, ([] : List Message)))

/-- One iteration of the event loop of `SingleRootSimulation` applied to the
popped message `msg` with remaining queue `rest`: a duplicate only bumps
`dupMsg`; a first arrival records the receive data and, unless the receiver
is malicious or has left, obtains the relay list from `Mercator.Respond` and
pushes one message per relay target with propagation delay
`CalculatePropagationDelay` and processing delay drawn from `procs`. -/
def simStep (dist : Nat → Nat → ℚ) (bandwidth dataSize : ℚ) (procs : Nat → ℚ)
    (root : Nat) (malFlags leaveFlags : List Bool) (msg : Message)
    (rest : List Message) (s : SimState) : SimState :=
  let u := msg.Dst
  if s.recvFlag.getD u false then
    { s with dupMsg := s.dupMsg + 1, queue := rest }
  else
    let s1 : SimState := { s with
      recvFlag := s.recvFlag.set u true
      recvTime := s.recvTime.set u msg.RecvTime
      recvDist := s.recvDist.set u (msg.RecvTime - msg.SendTime)
      recvParent := s.recvParent.set u (msg.Src : Int)
      recvList := s.recvList ++ [u]
      depth := if u ≠ root then s.depth.set u (s.depth.getD msg.Src 0 + 1) else s.depth
      queue := rest }
    if malFlags.getD u false || leaveFlags.getD u false then s1
    else
      let r := respond s1.merc msg
      let delayTime := procs s1.procCount
      let newMsgs := r.1.map (fun v =>
        (⟨root, u, v, msg.Step + 1,
          s1.recvTime.getD u 0 + delayTime,
          s1.recvTime.getD u 0 + calculatePropagationDelay dist u v bandwidth dataSize
            + delayTime⟩ : Message))
      { s1 with merc := r.2, procCount := s1.procCount + 1,
                queue := s1.queue ++ newMsgs }

/-- The event loop, run with explicit fuel: the Go loop runs until the queue
is empty, and every theorem below holds for every fuel large enough that the
queue does empty, so the fuel is not observable. -/
def simLoop (dist : Nat → Nat → ℚ) (bandwidth dataSize : ℚ) (procs : Nat → ℚ)
    (root : Nat) (malFlags leaveFlags : List Bool) : Nat → SimState → SimState
  | 0, s => s
  | fuel + 1, s =>
      match popMin s.queue with
      | none => s
      | some (msg, rest) =>
          simLoop dist bandwidth dataSize procs root malFlags leaveFlags fuel
            (simStep dist bandwidth dataSize procs root malFlags leaveFlags msg rest s)

/-- A state with an empty queue is a fixed point of the event loop. -/
lemma simLoop_of_queue_empty (dist : Nat → Nat → ℚ) (bandwidth dataSize : ℚ)
    (procs : Nat → ℚ) (root : Nat) (malFlags leaveFlags : List Bool) :
    ∀ (fuel : Nat) (s : SimState), s.queue = [] →
      simLoop dist bandwidth dataSize procs root malFlags leaveFlags fuel s = s := by
  intro fuel s h
  cases fuel with
  | zero => rfl
  | succ n => simp [simLoop, h, popMin]

/-! ### The post-broadcast statistics loop -/

/-- The test whether node `i` is an uncovered honest, present node:
`!recvFlag[i] && !malFlags[i] && !leaveFlags[i]`. -/
def honestUncovered (recvFlag malFlags leaveFlags : List Bool) (i : Nat) : Bool :=
  !(recvFlag.getD i false) && !(malFlags.getD i false) && !(leaveFlags.getD i false)

/-- The accumulator of the statistics loop. -/
structure StatsAcc where
  recvTime : List ℚ
  recvList : List Nat
  depth : List Nat
  recvCount : Nat
  latSum : ℚ

/-- One index of the statistics loop of `SingleRootSimulation`: an uncovered
honest present node gets `recvTime[i] = inf`, is appended to `recvList` and
gets `depth[i] = MaxDepth - 1`; a covered node is counted into `recvCount`
and its receive time added to the latency sum.  (The cluster statistics of
the same loop are skipped: `runMercator` passes `clusterResult = nil`.) -/
def statsStep (recvFlag malFlags leaveFlags : List Bool) (a : StatsAcc) (i : Nat) :
    StatsAcc :=
  if honestUncovered recvFlag malFlags leaveFlags i then
    { a with recvTime := a.recvTime.set i inf
             recvList := a.recvList ++ [i]
             depth := a.depth.set i (MaxDepth - 1) }
  else if recvFlag.getD i false then
    { a with recvCount := a.recvCount + 1, latSum := a.latSum + a.recvTime.getD i 0 }
  else a

/-- The statistics loop over `i ∈ [0, n)`. -/
def statsPhase (n : Nat) (recvFlag malFlags leaveFlags : List Bool) (a : StatsAcc) :
    StatsAcc :=
  (List.range n).foldl (statsStep recvFlag malFlags leaveFlags) a

/-- The uncovered honest present nodes among `[0, n)`, in index order. -/
def uncoveredNodes (n : Nat) (recvFlag malFlags leaveFlags : List Bool) : List Nat :=
  (List.range n).filter (honestUncovered recvFlag malFlags leaveFlags)

/-- `(dupMsg + len(recvList)) / len(recvList)`: the bandwidth term one
repetition adds to `AvgBandwidth`. -/
def bandwidthTerm (dupMsg : Nat) (recvList : List Nat) : ℚ :=
  ((dupMsg : ℚ) + (recvList.length : ℚ)) / (recvList.length : ℚ)

/-- The depth histogram of the depth-statistics loop: one increment at index
`depth[u]` for every `u ∈ recvList` with `depth[u] < MaxDepth`.  (The Go loop
also accumulates `AvgDist` and `depthCnt`; the three accumulators are
independent and are modelled as separate folds.) -/
def depthCDFRaw (recvList : List Nat) (depth : List Nat) : List ℚ :=
  recvList.foldl
    (fun cdf u =>
      if depth.getD u 0 < MaxDepth then
        cdf.set (depth.getD u 0) (cdf.getD (depth.getD u 0) 0 + 1)
      else cdf)
    (List.replicate MaxDepth 0)

/-- The `AvgDist` accumulation of the depth-statistics loop. -/
def avgDistRaw (recvList : List Nat) (depth : List Nat) (recvDist : List ℚ) : List ℚ :=
  recvList.foldl
    (fun acc u =>
      if depth.getD u 0 < MaxDepth then
        acc.set (depth.getD u 0) (acc.getD (depth.getD u 0) 0 + recvDist.getD u 0)
      else acc)
    (List.replicate MaxDepth 0)

/-- The `depthCnt` accumulation of the depth-statistics loop. -/
def depthCntRaw (recvList : List Nat) (depth : List Nat) : List Nat :=
  recvList.foldl
    (fun acc u =>
      if depth.getD u 0 < MaxDepth then
        acc.set (depth.getD u 0) (acc.getD (depth.getD u 0) 0 + 1)
      else acc)
    (List.replicate MaxDepth 0)

/-! ### Result assembly -/

/-- `TestResult` (part_007): `Latency` has 21 slots, `DepthCDF` and `AvgDist`
`MaxDepth = 40` each.  The cluster fields and `SuccessChildren` are never read
by the claims settled here (every checked run passes `clusterResult = nil`)
and are omitted. -/
structure TestResult where
  AvgBandwidth : ℚ
  AvgLatency : ℚ
  Latency : List ℚ
  DepthCDF : List ℚ
  AvgDist : List ℚ

/-- `NewTestResult`. -/
def newTestResult : TestResult :=
  { AvgBandwidth := 0
    AvgLatency := 0
    Latency := List.replicate 21 0
    DepthCDF := List.replicate MaxDepth 0
    AvgDist := List.replicate MaxDepth 0 }

/-- Sort the receive list by ascending receive time.  Go uses `sort.Slice`
with a strict comparison, whose order on ties is unspecified; the exchange
sort shared with the bucket fill realises one such order. -/
def sortByRecvTime (recvTime : List ℚ) (recvList : List Nat) : List Nat :=
  (exchangeSort (recvList.map (fun u => (recvTime.getD u 0, u)))).map (fun p => p.2)

/-- Go `int(q)` on a rational: truncation toward zero. -/
def ratTrunc (q : ℚ) : Int :=
  Int.tdiv q.num (q.den : Int)

/-- The latency-percentile loop.  With exact arithmetic `pct` takes the
values `(k+1)/20` for `k = 0 .. 19`; under float64 the nineteen accumulated
`0.05` steps overshoot `1.0` and the twentieth iteration is skipped, but
every slot the Go loop does touch receives exactly the value computed here
and an untouched slot keeps its accumulator, which the final pass below
treats identically for the claims checked.  (Marked irreducible so that
definitional unfolding never unrolls the twenty iterations; proofs unfold it
explicitly.) -/
@[irreducible] def percentileFill (nonMal : Nat) (recvTime : List ℚ) (sorted : List Nat)
    (lat : List ℚ) : List ℚ :=
  (List.range 20).foldl
    (fun (l : List ℚ) (k : Nat) =>
      let idx0 := (ratTrunc ((nonMal : ℚ) * (((k : ℚ) + 1) / 20))).toNat
      let idx := if nonMal ≤ idx0 then nonMal - 1 else idx0
      l.set k (l.getD k 0 + recvTime.getD (sorted.getD idx 0) 0))
    lat

/-- The post-loop half of one repetition of `SingleRootSimulation`, applied
to the final event-loop state `s`: run the statistics loop, then accumulate
this repetition into the result: add the bandwidth term, overwrite
`AvgLatency` with this repetition's average, add the depth histogram and
immediately divide `DepthCDF` by the receiver-list length and `AvgDist` by
the per-depth count (the Go code normalises the accumulated slots inside the
repetition loop), and add the latency percentiles.  Returns the updated
result together with the loop state and the statistics accumulator. -/
def singleRootReptPost (res : TestResult) (s : SimState) (n : Nat)
    (malFlags leaveFlags : List Bool) : TestResult × SimState × StatsAcc :=
  let a := statsPhase n s.recvFlag malFlags leaveFlags
    ⟨s.recvTime, s.recvList, s.depth, 0, 0⟩
  let avgLat := if 0 < a.recvCount then a.latSum / (a.recvCount : ℚ) else a.latSum
  let nonMal := a.recvList.length
  let cdfAdd := depthCDFRaw a.recvList a.depth
  let distAdd := avgDistRaw a.recvList a.depth s.recvDist
  let cnts := depthCntRaw a.recvList a.depth
  let depthCDF := (List.range MaxDepth).map
    (fun i => (res.DepthCDF.getD i 0 + cdfAdd.getD i 0) / (nonMal : ℚ))
  let avgDist := (List.range MaxDepth).map
    (fun i =>
      let v := res.AvgDist.getD i 0 + distAdd.getD i 0
      if 0 < cnts.getD i 0 then v / ((cnts.getD i 0 : Nat) : ℚ) else v)
  let sorted := sortByRecvTime a.recvTime a.recvList
  let lat := percentileFill nonMal a.recvTime sorted res.Latency
  ({ AvgBandwidth := res.AvgBandwidth + bandwidthTerm s.dupMsg a.recvList
     AvgLatency := avgLat
     Latency := lat
     DepthCDF := depthCDF
     AvgDist := avgDist }, s, a)

/-- One repetition of `SingleRootSimulation`: run the event loop on a clean
state with the given fuel, then the statistics and accumulation phase. -/
def singleRootRept (dist : Nat → Nat → ℚ) (bandwidth dataSize : ℚ)
    (procs : Nat → ℚ) (n root : Nat) (malFlags leaveFlags : List Bool)
    (fuel : Nat) (res : TestResult) (merc : Mercator) (procCount : Nat) :
    TestResult × SimState × StatsAcc :=
  singleRootReptPost res
    (simLoop dist bandwidth dataSize procs root malFlags leaveFlags fuel
      (initSimState n root merc procCount)) n malFlags leaveFlags

/-- `SingleRootSimulation(root, reptTime, ...)` with the Mercator algorithm:
`SetRoot(root)` once, then `reptTime` repetitions threading the algorithm
state and the processing-delay stream, then the final averaging: divide the
bandwidth and the depth CDF by `reptTime`, and post-process every latency
slot by removing the accumulated `inf` sentinels, dividing by the number of
valid repetitions, and replacing any value below `0.1` with `inf`. -/
def singleRootSimulation (dist : Nat → Nat → ℚ) (bandwidth dataSize : ℚ)
    (procs : Nat → ℚ) (n root reptTime : Nat) (malFlags leaveFlags : List Bool)
    (merc : Mercator) (fuel : Nat) : TestResult :=
  let fin := (List.range reptTime).foldl
    (fun (acc : TestResult × Mercator × Nat) _ =>
      let r := singleRootRept dist bandwidth dataSize procs n root malFlags
        leaveFlags fuel acc.1 acc.2.1 acc.2.2
      (r.1, r.2.1.merc, r.2.1.procCount))
    (newTestResult, setRoot merc root, 0)
  let res := fin.1
  { res with
    AvgBandwidth := res.AvgBandwidth / (reptTime : ℚ)
    DepthCDF := (List.range MaxDepth).map (fun i => res.DepthCDF.getD i 0 / (reptTime : ℚ))
    Latency := (List.range 21).map (fun i =>
      let v := res.Latency.getD i 0
      let tmp := ratTrunc (v / inf)
      let v1 := v - (tmp : ℚ) * inf
      let validCount : Int := (reptTime : Int) - tmp
      let v2 := if validCount = 0 then 0 else v1 / (validCount : ℚ)
      if v2 < 1 / 10 then inf else v2) }

/-! ### C10: uncovered nodes in the statistics phase -/

/-- A generic default-preserving replicate lookup. -/
lemma getD_replicate_self {α : Type} (x : α) :
    ∀ (n k : Nat), (List.replicate n x).getD k x = x
  | 0, _ => by simp
  | _ + 1, 0 => rfl
  | n + 1, k + 1 => getD_replicate_self x n k

/-- One statistics step never changes the lengths of the time and depth
arrays. -/
lemma statsStep_lengths (f m l : List Bool) (a : StatsAcc) (j : Nat) :
    (statsStep f m l a j).recvTime.length = a.recvTime.length ∧
    (statsStep f m l a j).depth.length = a.depth.length := by
  simp only [statsStep]
  split
  · simp
  · split
    · exact ⟨rfl, rfl⟩
    · exact ⟨rfl, rfl⟩

/-- The statistics loop appends exactly the uncovered honest present members
of `L` to the receive list, in order. -/
lemma statsFold_recvList (f m l : List Bool) :
    ∀ (L : List Nat) (a : StatsAcc),
      (L.foldl (statsStep f m l) a).recvList
        = a.recvList ++ L.filter (honestUncovered f m l)
  | [], a => by simp
  | j :: L, a => by
      have ih := statsFold_recvList f m l L (statsStep f m l a j)
      simp only [List.foldl_cons, List.filter_cons]
      rw [ih]
      by_cases hj : honestUncovered f m l j = true
      · rw [if_pos hj]
        have h1 : (statsStep f m l a j).recvList = a.recvList ++ [j] := by
          simp only [statsStep, hj, reduceIte]
        rw [h1, List.append_assoc]
        rfl
      · rw [if_neg hj]
        have h1 : (statsStep f m l a j).recvList = a.recvList := by
          rw [Bool.not_eq_true] at hj
          simp only [statsStep, hj, Bool.false_eq_true, reduceIte]
          split
          · rfl
          · rfl
        rw [h1]

/-- Once the time and depth entries of `i` hold the sentinel values, the rest
of the statistics loop preserves them. -/
lemma statsFold_preserve (f m l : List Bool) (i : Nat) :
    ∀ (L : List Nat) (a : StatsAcc), i < a.recvTime.length → i < a.depth.length →
      a.recvTime.getD i 0 = inf → a.depth.getD i 0 = MaxDepth - 1 →
      (L.foldl (statsStep f m l) a).recvTime.getD i 0 = inf ∧
      (L.foldl (statsStep f m l) a).depth.getD i 0 = MaxDepth - 1
  | [], _, _, _, ht, hd => ⟨ht, hd⟩
  | j :: L, a, hlt, hld, ht, hd => by
      have hlen := statsStep_lengths f m l a j
      have hstep : (statsStep f m l a j).recvTime.getD i 0 = inf ∧
          (statsStep f m l a j).depth.getD i 0 = MaxDepth - 1 := by
        simp only [statsStep]
        split
        · constructor
          · rcases eq_or_ne j i with hji | hji
            · subst hji; exact getD_set_self _ _ _ _ hlt
            · exact (getD_set_ne _ _ _ _ _ hji).trans ht
          · rcases eq_or_ne j i with hji | hji
            · subst hji; exact getD_set_self _ _ _ _ hld
            · exact (getD_set_ne _ _ _ _ _ hji).trans hd
        · split
          · exact ⟨ht, hd⟩
          · exact ⟨ht, hd⟩
      exact statsFold_preserve f m l i L (statsStep f m l a j)
        (by rw [hlen.1]; exact hlt) (by rw [hlen.2]; exact hld) hstep.1 hstep.2

/-- An uncovered honest present index visited by the statistics loop ends
with `recvTime = inf` and `depth = MaxDepth - 1`. -/
lemma statsFold_uncovered (f m l : List Bool) (i : Nat) :
    ∀ (L : List Nat) (a : StatsAcc), i ∈ L → honestUncovered f m l i = true →
      i < a.recvTime.length → i < a.depth.length →
      (L.foldl (statsStep f m l) a).recvTime.getD i 0 = inf ∧
      (L.foldl (statsStep f m l) a).depth.getD i 0 = MaxDepth - 1
  | [], _, hmem, _, _, _ => absurd hmem (List.not_mem_nil i)
  | j :: L, a, hmem, hu, hlt, hld => by
      have hlen := statsStep_lengths f m l a j
      rcases eq_or_ne j i with hji | hji
      · subst hji
        have hstep : (statsStep f m l a j).recvTime.getD j 0 = inf ∧
            (statsStep f m l a j).depth.getD j 0 = MaxDepth - 1 := by
          simp only [statsStep, hu, reduceIte]
          exact ⟨getD_set_self _ _ _ _ hlt, getD_set_self _ _ _ _ hld⟩
        exact statsFold_preserve f m l j L (statsStep f m l a j)
          (by rw [hlen.1]; exact hlt) (by rw [hlen.2]; exact hld) hstep.1 hstep.2
      · have hmem' : i ∈ L := by
          rcases List.mem_cons.mp hmem with h | h
          · exact absurd h.symm hji
          · exact h
        exact statsFold_uncovered f m l i L (statsStep f m l a j) hmem' hu
          (by rw [hlen.1]; exact hlt) (by rw [hlen.2]; exact hld)

/-- The depth-histogram fold counts, at any index `d < MaxDepth`, exactly the
receive-list members whose depth is `d`, on top of the initial slot value. -/
lemma depthHist_aux (depth : List Nat) (d : Nat) (hd : d < MaxDepth) :
    ∀ (L : List Nat) (cdf : List ℚ), cdf.length = MaxDepth →
      (L.foldl
        (fun cdf u =>
          if depth.getD u 0 < MaxDepth then
            cdf.set (depth.getD u 0) (cdf.getD (depth.getD u 0) 0 + 1)
          else cdf) cdf).getD d 0
        = cdf.getD d 0 + ((L.filter (fun u => depth.getD u 0 == d)).length : ℚ)
  | [], cdf, _ => by simp
  | u :: L, cdf, hlen => by
      simp only [List.foldl_cons, List.filter_cons]
      by_cases hu : depth.getD u 0 < MaxDepth
      · rw [if_pos hu]
        have ih := depthHist_aux depth d hd L
          (cdf.set (depth.getD u 0) (cdf.getD (depth.getD u 0) 0 + 1))
          (by rw [List.length_set]; exact hlen)
        rw [ih]
        rcases eq_or_ne (depth.getD u 0) d with hud | hud
        · have hbeq : (depth.getD u 0 == d) = true := by
            rw [hud]; exact beq_self_eq_true d
          rw [hbeq, if_pos rfl]
          rw [hud, getD_set_self _ _ _ _ (by rw [hlen]; exact hd)]
          simp only [List.length_cons, Nat.cast_add, Nat.cast_one]
          ring
        · have hbeq : (depth.getD u 0 == d) = false :=
            beq_eq_false_iff_ne.mpr hud
          simp only [hbeq, Bool.false_eq_true, reduceIte]
          rw [getD_set_ne _ _ _ _ _ hud]
      · rw [if_neg hu]
        have ih := depthHist_aux depth d hd L cdf hlen
        rw [ih]
        have hud : depth.getD u 0 ≠ d := fun h => hu (h ▸ hd)
        have hbeq : (depth.getD u 0 == d) = false :=
          beq_eq_false_iff_ne.mpr hud
        simp only [hbeq, Bool.false_eq_true, reduceIte]

/-- C10: after the broadcast loop, the statistics pass of
`SingleRootSimulation` appends every uncovered honest present node to the
receive list, with receive time `inf = 1e8` and depth `MaxDepth - 1 = 39`;
consequently the depth histogram counts each such node at index 39, and the
bandwidth ratio `(dupMsg + |recvList|) / |recvList|` counts it in its
denominator. -/
theorem stats_phase_uncovered (n : Nat) (recvFlag malFlags leaveFlags : List Bool)
    (recvTime : List ℚ) (recvList : List Nat) (depth : List Nat)
    (dupMsg : Nat) (i : Nat)
    (hrt : recvTime.length = n) (hdp : depth.length = n)
    (hi : i ∈ uncoveredNodes n recvFlag malFlags leaveFlags) :
    (statsPhase n recvFlag malFlags leaveFlags
        ⟨recvTime, recvList, depth, 0, 0⟩).recvList
      = recvList ++ uncoveredNodes n recvFlag malFlags leaveFlags ∧
    i ∈ (statsPhase n recvFlag malFlags leaveFlags
        ⟨recvTime, recvList, depth, 0, 0⟩).recvList ∧
    (statsPhase n recvFlag malFlags leaveFlags
        ⟨recvTime, recvList, depth, 0, 0⟩).recvTime.getD i 0 = inf ∧
    inf = 10 ^ 8 ∧
    (statsPhase n recvFlag malFlags leaveFlags
        ⟨recvTime, recvList, depth, 0, 0⟩).depth.getD i 0 = MaxDepth - 1 ∧
    MaxDepth - 1 = 39 ∧
    (depthCDFRaw
        (statsPhase n recvFlag malFlags leaveFlags
          ⟨recvTime, recvList, depth, 0, 0⟩).recvList
        (statsPhase n recvFlag malFlags leaveFlags
          ⟨recvTime, recvList, depth, 0, 0⟩).depth).getD 39 0
      = (((statsPhase n recvFlag malFlags leaveFlags
            ⟨recvTime, recvList, depth, 0, 0⟩).recvList.filter
          (fun u => (statsPhase n recvFlag malFlags leaveFlags
            ⟨recvTime, recvList, depth, 0, 0⟩).depth.getD u 0 == 39)).length : ℚ) ∧
    i ∈ (statsPhase n recvFlag malFlags leaveFlags
          ⟨recvTime, recvList, depth, 0, 0⟩).recvList.filter
        (fun u => (statsPhase n recvFlag malFlags leaveFlags
          ⟨recvTime, recvList, depth, 0, 0⟩).depth.getD u 0 == 39) ∧
    bandwidthTerm dupMsg
        (statsPhase n recvFlag malFlags leaveFlags
          ⟨recvTime, recvList, depth, 0, 0⟩).recvList
      = ((dupMsg : ℚ)
          + ((recvList.length
              + (uncoveredNodes n recvFlag malFlags leaveFlags).length : Nat) : ℚ))
        / (((recvList.length
              + (uncoveredNodes n recvFlag malFlags leaveFlags).length : Nat)) : ℚ) := by
  have hu' : honestUncovered recvFlag malFlags leaveFlags i = true :=
    (List.mem_filter.mp hi).2
  have hin : i ∈ List.range n := (List.mem_filter.mp hi).1
  have hiln : i < n := List.mem_range.mp hin
  have h1 := statsFold_recvList recvFlag malFlags leaveFlags (List.range n)
    ⟨recvTime, recvList, depth, 0, 0⟩
  have h34 := statsFold_uncovered recvFlag malFlags leaveFlags i (List.range n)
    ⟨recvTime, recvList, depth, 0, 0⟩ hin hu'
    (by show i < recvTime.length; rw [hrt]; exact hiln)
    (by show i < depth.length; rw [hdp]; exact hdp ▸ hiln)
  have hmem : i ∈ (statsPhase n recvFlag malFlags leaveFlags
      ⟨recvTime, recvList, depth, 0, 0⟩).recvList := by
    show i ∈ ((List.range n).foldl
      (statsStep recvFlag malFlags leaveFlags) ⟨recvTime, recvList, depth, 0, 0⟩).recvList
    rw [h1]
    exact List.mem_append.mpr (Or.inr hi)
  have hdep : (statsPhase n recvFlag malFlags leaveFlags
      ⟨recvTime, recvList, depth, 0, 0⟩).depth.getD i 0 = MaxDepth - 1 := h34.2
  have hfil : i ∈ (statsPhase n recvFlag malFlags leaveFlags
        ⟨recvTime, recvList, depth, 0, 0⟩).recvList.filter
      (fun u => (statsPhase n recvFlag malFlags leaveFlags
        ⟨recvTime, recvList, depth, 0, 0⟩).depth.getD u 0 == 39) := by
    refine List.mem_filter.mpr ⟨hmem, ?_⟩
    rw [hdep]
    rfl
  refine ⟨h1, hmem, h34.1, rfl, hdep, rfl, ?_, hfil, ?_⟩
  · simp only [depthCDFRaw]
    rw [depthHist_aux
      (statsPhase n recvFlag malFlags leaveFlags
        ⟨recvTime, recvList, depth, 0, 0⟩).depth 39 (by decide)
      (statsPhase n recvFlag malFlags leaveFlags
        ⟨recvTime, recvList, depth, 0, 0⟩).recvList
      (List.replicate MaxDepth 0) (by simp)]
    rw [getD_replicate_self, zero_add]
  · simp only [bandwidthTerm]
    have h1' : (statsPhase n recvFlag malFlags leaveFlags
        ⟨recvTime, recvList, depth, 0, 0⟩).recvList
        = recvList ++ uncoveredNodes n recvFlag malFlags leaveFlags := h1
    rw [h1', List.length_append]

/-- Witness for C10: node 1 of a two-node network is honest, present and
uncovered; the statistics pass appends it with `recvTime = inf` and
`depth = 39`, and the bandwidth denominator becomes 2. -/
theorem stats_phase_uncovered_witness :
    (statsPhase 2 [true, false] [false, false] [false, false]
        ⟨[0, 0], [0], [0, 0], 0, 0⟩).recvList
      = [0] ++ uncoveredNodes 2 [true, false] [false, false] [false, false] ∧
    1 ∈ (statsPhase 2 [true, false] [false, false] [false, false]
        ⟨[0, 0], [0], [0, 0], 0, 0⟩).recvList ∧
    (statsPhase 2 [true, false] [false, false] [false, false]
        ⟨[0, 0], [0], [0, 0], 0, 0⟩).recvTime.getD 1 0 = inf ∧
    inf = 10 ^ 8 ∧
    (statsPhase 2 [true, false] [false, false] [false, false]
        ⟨[0, 0], [0], [0, 0], 0, 0⟩).depth.getD 1 0 = MaxDepth - 1 ∧
    MaxDepth - 1 = 39 ∧
    (depthCDFRaw
        (statsPhase 2 [true, false] [false, false] [false, false]
          ⟨[0, 0], [0], [0, 0], 0, 0⟩).recvList
        (statsPhase 2 [true, false] [false, false] [false, false]
          ⟨[0, 0], [0], [0, 0], 0, 0⟩).depth).getD 39 0
      = (((statsPhase 2 [true, false] [false, false] [false, false]
            ⟨[0, 0], [0], [0, 0], 0, 0⟩).recvList.filter
          (fun u => (statsPhase 2 [true, false] [false, false] [false, false]
            ⟨[0, 0], [0], [0, 0], 0, 0⟩).depth.getD u 0 == 39)).length : ℚ) ∧
    1 ∈ (statsPhase 2 [true, false] [false, false] [false, false]
          ⟨[0, 0], [0], [0, 0], 0, 0⟩).recvList.filter
        (fun u => (statsPhase 2 [true, false] [false, false] [false, false]
          ⟨[0, 0], [0], [0, 0], 0, 0⟩).depth.getD u 0 == 39) ∧
    bandwidthTerm 3
        (statsPhase 2 [true, false] [false, false] [false, false]
          ⟨[0, 0], [0], [0, 0], 0, 0⟩).recvList
      = ((3 : ℚ)
          + ((([0] : List Nat).length
              + (uncoveredNodes 2 [true, false] [false, false] [false, false]).length
                : Nat) : ℚ))
        / (((([0] : List Nat).length
              + (uncoveredNodes 2 [true, false] [false, false] [false, false]).length
                : Nat)) : ℚ) :=
  stats_phase_uncovered 2 [true, false] [false, false] [false, false]
    [0, 0] [0] [0, 0] 3 1 rfl rfl (by decide)

/-! ### C4: the single-node run -/

/-- The one-node Mercator instance with the `runMercator` construction
parameters (GeoPrec 2, BucketSize 6, K0Threshold 9999, KaryFactor 3): the
single node 0 has Geohash "s0" (the Geohash of the origin), all eleven
buckets empty and a singleton group, exactly as `NewMercator(1, ...)` yields
for a one-node network. -/
def c4merc : Mercator :=
  { NodeGeohash := [['s', '0']]
    KBuckets := [List.replicate 11 []]
    GeohashGroups := [(['s', '0'], [0])]
    TreeRoot := 0
    Visited := [List.replicate 41 false]
    GeoPrec := 2
    BucketSize := 6
    K0Threshold := 9999
    KaryFactor := 3
    TotalBits := 10
    KaryMsgInfo := [⟨-1, false⟩] }

/-- The simulation state after the single event-loop step of the one-node
run: the root consumes its own initial message and relays to nobody. -/
def c4S (d : Nat → Nat → ℚ) (bw ds : ℚ) (p : Nat → ℚ) : SimState :=
  simStep d bw ds p 0 [false] [false] ⟨0, 0, 0, 0, 0, 0⟩ []
    (initSimState 1 0 (setRoot c4merc 0) 0)

/-- Lookup into a range-map list. -/
lemma getD_map_range {α : Type} (f : Nat → α) (d : α) (n k : Nat) (h : k < n) :
    ((List.range n).map f).getD k d = f k := by
  rw [List.getD_eq_getElem?_getD, List.getElem?_map, List.getElem?_range h]
  rfl

/-- Every lookup into the singleton zero list is zero. -/
lemma getD_zero_singleton : ∀ i : Nat, ([(0 : ℚ)]).getD i 0 = 0 := by
  intro i
  cases i
  · rfl
  · rfl

/-- A fold that adds zero-valued contributions into slots keeps an all-zero
list all zero. -/
lemma foldl_setadd_zero (v : Nat → ℚ) (hv : ∀ k, v k = 0) :
    ∀ (ks : List Nat) (lat : List ℚ), (∀ j, lat.getD j 0 = 0) →
      ∀ j, (ks.foldl (fun (l : List ℚ) (k : Nat) => l.set k (l.getD k 0 + v k))
        lat).getD j 0 = 0
  | [], _, h, j => h j
  | k :: ks, lat, h, j => by
      refine foldl_setadd_zero v hv ks _ ?_ j
      intro j'
      dsimp only
      rcases eq_or_ne k j' with hk | hk
      · subst hk
        rcases Nat.lt_or_ge k lat.length with hl | hl
        · rw [getD_set_self _ _ _ _ hl, h k, hv k, add_zero]
        · rw [List.set_eq_of_length_le hl]; exact h k
      · rw [getD_set_ne _ _ _ _ _ hk]; exact h j'

/-- When every receive time is zero, the percentile loop leaves an all-zero
latency accumulator all zero, whatever the sorted order and the population
count. -/
lemma percentileFill_zero (nonMal : Nat) (recvTime : List ℚ)
    (hrt : ∀ j, recvTime.getD j 0 = 0) (sorted : List Nat) (lat : List ℚ)
    (hl : ∀ j, lat.getD j 0 = 0) :
    ∀ j, (percentileFill nonMal recvTime sorted lat).getD j 0 = 0 := by
  intro j
  unfold percentileFill
  exact foldl_setadd_zero
    (fun k => recvTime.getD
      (sorted.getD
        (if nonMal ≤ (ratTrunc ((nonMal : ℚ) * (((k : ℚ) + 1) / 20))).toNat
          then nonMal - 1
          else (ratTrunc ((nonMal : ℚ) * (((k : ℚ) + 1) / 20))).toNat) 0) 0)
    (fun _ => hrt _) (List.range 20) lat hl j

/-- Projection of the bandwidth accumulation out of `singleRootReptPost`. -/
lemma singleRootReptPost_bw (res : TestResult) (s : SimState) (n : Nat)
    (m l : List Bool) :
    (singleRootReptPost res s n m l).1.AvgBandwidth
      = res.AvgBandwidth + bandwidthTerm s.dupMsg
          (statsPhase n s.recvFlag m l
            ⟨s.recvTime, s.recvList, s.depth, 0, 0⟩).recvList := rfl

/-- Projection of the depth CDF accumulation out of `singleRootReptPost`. -/
lemma singleRootReptPost_cdf (res : TestResult) (s : SimState) (n : Nat)
    (m l : List Bool) :
    (singleRootReptPost res s n m l).1.DepthCDF
      = (List.range MaxDepth).map
          (fun i => (res.DepthCDF.getD i 0
            + (depthCDFRaw
                (statsPhase n s.recvFlag m l
                  ⟨s.recvTime, s.recvList, s.depth, 0, 0⟩).recvList
                (statsPhase n s.recvFlag m l
                  ⟨s.recvTime, s.recvList, s.depth, 0, 0⟩).depth).getD i 0)
            / (((statsPhase n s.recvFlag m l
                  ⟨s.recvTime, s.recvList, s.depth, 0, 0⟩).recvList.length : Nat)
              : ℚ)) := rfl

/-- Projection of the latency accumulation out of `singleRootReptPost`. -/
lemma singleRootReptPost_latency (res : TestResult) (s : SimState) (n : Nat)
    (m l : List Bool) :
    (singleRootReptPost res s n m l).1.Latency
      = percentileFill
          (statsPhase n s.recvFlag m l
            ⟨s.recvTime, s.recvList, s.depth, 0, 0⟩).recvList.length
          (statsPhase n s.recvFlag m l
            ⟨s.recvTime, s.recvList, s.depth, 0, 0⟩).recvTime
          (sortByRecvTime
            (statsPhase n s.recvFlag m l
              ⟨s.recvTime, s.recvList, s.depth, 0, 0⟩).recvTime
            (statsPhase n s.recvFlag m l
              ⟨s.recvTime, s.recvList, s.depth, 0, 0⟩).recvList)
          res.Latency := rfl

/-- Projection of the statistics accumulator out of `singleRootReptPost`. -/
lemma singleRootReptPost_acc (res : TestResult) (s : SimState) (n : Nat)
    (m l : List Bool) :
    (singleRootReptPost res s n m l).2.2
      = statsPhase n s.recvFlag m l
          ⟨s.recvTime, s.recvList, s.depth, 0, 0⟩ := rfl

set_option maxHeartbeats 1600000 in
/-- The evaluation of the one-node, one-repetition run, stated for any fuel
whose event loop reaches the fixed point: the root is the sole receiver, the
bandwidth is 1, the depth CDF puts mass 1 at depth 0, and every latency
percentile slot ends at `inf` (the sole receive time 0 averages to 0, which
the final pass replaces with `inf` because it is below 0.1). -/
lemma c4_eval_gen (d : Nat → Nat → ℚ) (bw ds : ℚ) (p : Nat → ℚ) (F : Nat)
    (hF : simLoop d bw ds p 0 [false] [false] F
      (initSimState 1 0 (setRoot c4merc 0) 0) = c4S d bw ds p) :
    (singleRootSimulation d bw ds p 1 0 1 [false] [false] c4merc
      F).AvgBandwidth = 1 ∧
    (singleRootSimulation d bw ds p 1 0 1 [false] [false] c4merc
      F).DepthCDF.getD 0 0 = 1 ∧
    (∀ k, k < 21 →
      (singleRootSimulation d bw ds p 1 0 1 [false] [false] c4merc
        F).Latency.getD k 0 = inf) ∧
    (singleRootRept d bw ds p 1 0 [false] [false] F newTestResult
      (setRoot c4merc 0) 0).2.2.recvList = [0] := by
  have hr1 : List.range 1 = [0] := by decide
  have hS_flag : (c4S d bw ds p).recvFlag = [true] := rfl
  have hS_time : (c4S d bw ds p).recvTime = [(0 : ℚ)] := rfl
  have hS_list : (c4S d bw ds p).recvList = [0] := rfl
  have hS_depth : (c4S d bw ds p).depth = [0] := rfl
  have hS_dup : (c4S d bw ds p).dupMsg = 0 := rfl
  have hA_list : (statsPhase 1 [true] [false] [false]
      (⟨[(0 : ℚ)], [0], [0], 0, 0⟩ : StatsAcc)).recvList = [0] := rfl
  have hA_time : (statsPhase 1 [true] [false] [false]
      (⟨[(0 : ℚ)], [0], [0], 0, 0⟩ : StatsAcc)).recvTime = [(0 : ℚ)] := rfl
  have hA_depth : (statsPhase 1 [true] [false] [false]
      (⟨[(0 : ℚ)], [0], [0], 0, 0⟩ : StatsAcc)).depth = [0] := rfl
  have hsp : statsPhase 1 (c4S d bw ds p).recvFlag [false] [false]
      ⟨(c4S d bw ds p).recvTime, (c4S d bw ds p).recvList,
        (c4S d bw ds p).depth, 0, 0⟩
      = statsPhase 1 [true] [false] [false]
        (⟨[(0 : ℚ)], [0], [0], 0, 0⟩ : StatsAcc) := by
    rw [hS_flag, hS_time, hS_list, hS_depth]
  have hpost : singleRootRept d bw ds p 1 0 [false] [false] F newTestResult
      (setRoot c4merc 0) 0
      = singleRootReptPost newTestResult (c4S d bw ds p) 1 [false] [false] := by
    simp only [singleRootRept]
    rw [hF]
  refine ⟨?_, ?_, ?_, ?_⟩
  · simp only [singleRootSimulation, hr1, List.foldl_cons, List.foldl_nil]
    rw [hpost, singleRootReptPost_bw, hsp, hS_dup, hA_list]
    simp only [bandwidthTerm, newTestResult, List.length_singleton]
    norm_num
  · simp only [singleRootSimulation, hr1, List.foldl_cons, List.foldl_nil]
    rw [hpost]
    rw [getD_map_range _ _ MaxDepth 0 (by decide)]
    rw [singleRootReptPost_cdf, hsp, hA_list, hA_depth]
    rw [getD_map_range _ _ MaxDepth 0 (by decide)]
    have hcdf : (depthCDFRaw [0] [0]).getD 0 0 = (0 : ℚ) + 1 := rfl
    simp only [newTestResult, List.length_singleton]
    rw [hcdf, getD_replicate_self]
    norm_num
  · intro k hk
    simp only [singleRootSimulation, hr1, List.foldl_cons, List.foldl_nil]
    rw [hpost]
    rw [getD_map_range _ _ 21 k hk]
    rw [singleRootReptPost_latency, hsp, hA_list, hA_time]
    simp only [newTestResult, List.length_singleton]
    rw [percentileFill_zero 1 [(0 : ℚ)] getD_zero_singleton _ _
      (fun j => getD_replicate_self (0 : ℚ) 21 j) k]
    rw [zero_div, show ratTrunc 0 = 0 from rfl]
    norm_num [inf]
  · rw [hpost, singleRootReptPost_acc, hsp]
    exact hA_list

/-- The evaluation of the one-node run at any fuel at least 2. -/
lemma c4_eval (d : Nat → Nat → ℚ) (bw ds : ℚ) (p : Nat → ℚ) (fuel : Nat) :
    (singleRootSimulation d bw ds p 1 0 1 [false] [false] c4merc
      (fuel + 2)).AvgBandwidth = 1 ∧
    (singleRootSimulation d bw ds p 1 0 1 [false] [false] c4merc
      (fuel + 2)).DepthCDF.getD 0 0 = 1 ∧
    (∀ k, k < 21 →
      (singleRootSimulation d bw ds p 1 0 1 [false] [false] c4merc
        (fuel + 2)).Latency.getD k 0 = inf) ∧
    (singleRootRept d bw ds p 1 0 [false] [false] (fuel + 2) newTestResult
      (setRoot c4merc 0) 0).2.2.recvList = [0] := by
  have hq : (c4S d bw ds p).queue = [] := rfl
  have hloop : simLoop d bw ds p 0 [false] [false] (fuel + 2)
      (initSimState 1 0 (setRoot c4merc 0) 0) = c4S d bw ds p := by
    have h2 : simLoop d bw ds p 0 [false] [false] (fuel + 1) (c4S d bw ds p)
        = c4S d bw ds p :=
      simLoop_of_queue_empty d bw ds p 0 [false] [false] (fuel + 1) (c4S d bw ds p) hq
    exact h2
  exact c4_eval_gen d bw ds p (fuel + 2) hloop

/-- C4 (amended): with a single honest, present node, a one-repetition
single-root simulation from root 0 terminates with the root as the sole
receiver, and its result has bandwidth 1 and DepthCDF[0] = 1; but every one
of the 21 latency percentile slots equals `inf = 1e8`, not 0: the sole
receive time 0 averages to 0, and the final pass of `SingleRootSimulation`
replaces every latency below 0.1 with `inf`. -/
theorem single_node_simulation_result (d : Nat → Nat → ℚ) (bw ds : ℚ)
    (p : Nat → ℚ) (fuel : Nat) :
    (singleRootSimulation d bw ds p 1 0 1 [false] [false] c4merc
      (fuel + 2)).AvgBandwidth = 1 ∧
    (singleRootSimulation d bw ds p 1 0 1 [false] [false] c4merc
      (fuel + 2)).DepthCDF.getD 0 0 = 1 ∧
    (∀ k, k < 21 →
      (singleRootSimulation d bw ds p 1 0 1 [false] [false] c4merc
        (fuel + 2)).Latency.getD k 0 = inf) ∧
    (singleRootRept d bw ds p 1 0 [false] [false] (fuel + 2) newTestResult
      (setRoot c4merc 0) 0).2.2.recvList = [0] :=
  c4_eval d bw ds p fuel

/-- Counterexample to C4 as stated: the latency percentile slots of the
single-node run are not 0 (they are `inf = 1e8`). -/
theorem single_node_latency_counterexample :
    (singleRootSimulation (fun _ _ => 0) 1 0 (fun _ => 0) 1 0 1 [false] [false]
      c4merc 2).Latency.getD 0 0 ≠ 0 := by
  have h : (singleRootSimulation (fun _ _ => 0) 1 0 (fun _ => 0) 1 0 1
      [false] [false] c4merc 2).Latency.getD 0 0 = inf :=
    (c4_eval (fun _ _ => 0) 1 0 (fun _ => 0) 0).2.2.1 0 (by decide)
  rw [h]
  norm_num [inf]

/-- Witness for the amended C4 theorem at zero distances, bandwidth 1, data
size 0, zero processing delays and fuel 2. -/
theorem single_node_simulation_result_witness :
    (singleRootSimulation (fun _ _ => 0) 1 0 (fun _ => 0) 1 0 1 [false] [false]
      c4merc 2).AvgBandwidth = 1 ∧
    (singleRootSimulation (fun _ _ => 0) 1 0 (fun _ => 0) 1 0 1 [false] [false]
      c4merc 2).Latency.getD 0 0 = inf ∧
    (singleRootRept (fun _ _ => 0) 1 0 (fun _ => 0) 1 0 [false] [false] 2
      newTestResult (setRoot c4merc 0) 0).2.2.recvList = [0] :=
  ⟨(single_node_simulation_result (fun _ _ => 0) 1 0 (fun _ => 0) 0).1,
   (single_node_simulation_result (fun _ _ => 0) 1 0 (fun _ => 0) 0).2.2.1 0
     (by decide),
   (single_node_simulation_result (fun _ _ => 0) 1 0 (fun _ => 0) 0).2.2.2⟩

end Gomercator
